import Mathlib

/-!
Verification of the sorting core of the `newtutils` repository
(`newtutils/utility.py`): the functions `sorting_list` and
`sorting_dict_by_keys`, together with the `validate_input` helper and the
halt/continue error behaviour of `console.error_msg`.

Python values occurring in inputs of these functions are modelled by the
inductive type `PyVal`.  Python `==` and `<` on this fragment are modelled
by `pyEq` and `pyLt`; `<` is partial (`Except Unit Bool`), with `.error ()`
standing for a raised `TypeError` on unorderable operands.  CPython
`sorted` is a stable sort that only ever calls `<` on the key values; it is
modelled by a stable insertion sort in the `Except` monad (`sortE`), and
`sorted(..., reverse=True)` — the stable descending sort — by the flipped
comparator.  Observable call outcomes are modelled by `PyResult`:
`SystemExit(1)` raised by `error_msg(..., stop=True)`, or a normal return,
flagged when an error message was printed with `stop=False` on the way.
-/

set_option maxHeartbeats 1000000

/-- Python values as they appear in the inputs of the two sorting
utilities: `None`, `bool`, `int`, `float`, `str`, `list`, `tuple` and
string-keyed `dict` (records).  `float` carries a rational payload (NaN and
infinities are not modelled; no claim depends on them). -/
inductive PyVal where
  | pynone
  | pybool (b : Bool)
  | pyint (n : Int)
  | pyfloat (q : Rat)
  | pystr (s : String)
  | pylist (xs : List PyVal)
  | pytuple (xs : List PyVal)
  | pydict (entries : List (String × PyVal))

/-- The integer value of a Python `bool` (`bool` is a subclass of `int`:
`True == 1`, `False == 0`). -/
def boolAsInt (b : Bool) : Int := if b then 1 else 0

/-- The common rational value of a Python number (`bool`, `int`, `float`);
`none` for non-numbers.  Python compares numbers across these three types
by value. -/
def toRatN : PyVal → Option Rat
  | .pybool b => some ((boolAsInt b : Int) : Rat)
  | .pyint n => some ((n : Int) : Rat)
  | .pyfloat q => some q
  | _ => none

/-- Lexicographic comparison of strings by code point, Python `<` on
`str`. -/
def charListLt : List Char → List Char → Bool
  | [], [] => false
  | [], _ :: _ => true
  | _ :: _, [] => false
  | c :: cs, d :: ds =>
    if c.toNat < d.toNat then true
    else if d.toNat < c.toNat then false
    else charListLt cs ds

mutual

/-- Python `==` on `PyVal` (total on this fragment, it raises nothing).
Numbers (`bool`, `int`, `float`) compare by numeric value across types;
strings by content; lists/tuples elementwise with matching constructor;
dicts as key→value mappings (same size and same value under every key —
Python dicts have unique keys, on such values the symmetric size+containment
formulation below coincides with Python size+one-sided containment). -/
def pyEq : PyVal → PyVal → Bool
  | .pynone, .pynone => true
  | .pybool a, .pybool b => a == b
  | .pybool a, .pyint m => boolAsInt a == m
  | .pybool a, .pyfloat q => decide (((boolAsInt a : Int) : Rat) = q)
  | .pyint n, .pybool b => n == boolAsInt b
  | .pyint n, .pyint m => n == m
  | .pyint n, .pyfloat q => decide (((n : Int) : Rat) = q)
  | .pyfloat p, .pybool b => decide (p = ((boolAsInt b : Int) : Rat))
  | .pyfloat p, .pyint m => decide (p = ((m : Int) : Rat))
  | .pyfloat p, .pyfloat q => decide (p = q)
  | .pystr s, .pystr t => s == t
  | .pylist xs, .pylist ys => pyEqList xs ys
  | .pytuple xs, .pytuple ys => pyEqList xs ys
  | .pydict d1, .pydict d2 =>
    (d1.length == d2.length) && pyEqDictLe d1 d2 && pyEqDictLe d2 d1
  | _, _ => false
  termination_by v w => sizeOf v + sizeOf w
  decreasing_by all_goals (simp_wf <;> omega)

/-- Elementwise `==` of two Python sequences. -/
def pyEqList : List PyVal → List PyVal → Bool
  | [], [] => true
  | x :: xs, y :: ys => pyEq x y && pyEqList xs ys
  | _, _ => false
  termination_by xs ys => sizeOf xs + sizeOf ys
  decreasing_by all_goals (simp_wf <;> omega)

/-- Every entry of the first dict is `==`-matched in the second. -/
def pyEqDictLe : List (String × PyVal) → List (String × PyVal) → Bool
  | [], _ => true
  | (k, v) :: t, d2 => pyEqDictEntry k v d2 && pyEqDictLe t d2
  termination_by d1 d2 => sizeOf d1 + sizeOf d2
  decreasing_by all_goals (simp_wf <;> omega)

/-- The second dict maps `k` to a value `==`-equal to `v`. -/
def pyEqDictEntry : String → PyVal → List (String × PyVal) → Bool
  | _, _, [] => false
  | k, v, (k2, v2) :: t => if k2 = k then pyEq v v2 else pyEqDictEntry k v t
  termination_by k v d => sizeOf v + sizeOf d
  decreasing_by all_goals (simp_wf <;> omega)

end

mutual

/-- Python `<` on `PyVal`; `.error ()` models a raised `TypeError`
(unorderable operands: `None`, dicts, and cross-category pairs). -/
def pyLt : PyVal → PyVal → Except Unit Bool
  | .pybool a, .pybool b => .ok (decide (boolAsInt a < boolAsInt b))
  | .pybool a, .pyint m => .ok (decide (boolAsInt a < m))
  | .pybool a, .pyfloat q => .ok (decide (((boolAsInt a : Int) : Rat) < q))
  | .pyint n, .pybool b => .ok (decide (n < boolAsInt b))
  | .pyint n, .pyint m => .ok (decide (n < m))
  | .pyint n, .pyfloat q => .ok (decide (((n : Int) : Rat) < q))
  | .pyfloat p, .pybool b => .ok (decide (p < ((boolAsInt b : Int) : Rat)))
  | .pyfloat p, .pyint m => .ok (decide (p < ((m : Int) : Rat)))
  | .pyfloat p, .pyfloat q => .ok (decide (p < q))
  | .pystr s, .pystr t => .ok (charListLt s.data t.data)
  | .pylist xs, .pylist ys => pyLtList xs ys
  | .pytuple xs, .pytuple ys => pyLtList xs ys
  | _, _ => .error ()
  termination_by v w => sizeOf v + sizeOf w
  decreasing_by all_goals (simp_wf <;> omega)

/-- Python lexicographic `<` on sequences: skip the longest common
`==`-prefix, then compare the first differing elements with `<` (which may
raise); a strict prefix is smaller. -/
def pyLtList : List PyVal → List PyVal → Except Unit Bool
  | [], [] => .ok false
  | [], _ :: _ => .ok true
  | _ :: _, [] => .ok false
  | x :: xs, y :: ys => if pyEq x y then pyLtList xs ys else pyLt x y
  termination_by xs ys => sizeOf xs + sizeOf ys
  decreasing_by all_goals (simp_wf <;> omega)

end

/-- `isinstance(x, list)`. -/
def isinstList : PyVal → Bool
  | .pylist _ => true
  | _ => false

/-- `isinstance(x, dict)`. -/
def isinstDict : PyVal → Bool
  | .pydict _ => true
  | _ => false

/-- `isinstance(x, str)`. -/
def isinstStr : PyVal → Bool
  | .pystr _ => true
  | _ => false

/-- `isinstance(x, (str, int))`.  Python `bool` is a subclass of `int`,
so booleans pass this check. -/
def isinstStrOrInt : PyVal → Bool
  | .pystr _ => true
  | .pyint _ => true
  | .pybool _ => true
  | _ => false

/-- `isinstance(x, int)` — includes `bool`. -/
def isinstInt : PyVal → Bool
  | .pyint _ => true
  | .pybool _ => true
  | _ => false

/-- `x is None`. -/
def isPyNone : PyVal → Bool
  | .pynone => true
  | _ => false

/-- Observable outcome of a call into `newtutils`: `exit` models
`SystemExit(1)` raised by `error_msg(..., stop=True)`; `ok reported v` a
normal return of `v`, with `reported = true` when an error message was
printed via `error_msg(..., stop=False)` first. -/
inductive PyResult (α : Type) where
  | exit
  | ok (reported : Bool) (val : α)

/-- `validate_input(value, expected_type, stop)` from `utility.py` /
`console.py`: an `isinstance` check; on failure it reports via `error_msg`
and, with `stop=True`, raises `SystemExit(1)`.  The expected type is passed
as the corresponding `isinstance` predicate. -/
def validate_input (value : PyVal) (expected : PyVal → Bool) (stop : Bool) :
    PyResult Bool :=
  if expected value then .ok false true
  else if stop then .exit else .ok true false

/-- `set(json_input)` restricted to what `sorting_list` needs: the list of
first occurrences of each `==`-class, in first-appearance order (a CPython
set keeps the first-inserted element of each equality class). -/
def pySet : List PyVal → List PyVal
  | [] => []
  | x :: xs => x :: pySet (xs.filter (fun y => !pyEq y x))
  termination_by l => l.length
  decreasing_by
    exact Nat.lt_succ_of_le (List.length_filter_le _ _)

/-- The string payload of a `str` value (only applied after an
`isinstance(…, str)` check). -/
def strVal : PyVal → String
  | .pystr s => s
  | _ => ""

/-- The numeric payload of an `int`/`bool` value (only applied after an
`isinstance(…, int)` check). -/
def numVal (v : PyVal) : Rat :=
  match toRatN v with
  | some q => q
  | none => 0

/-- Order used for `sorted` on the string group: `v` may precede `w`. -/
def strLe (v w : PyVal) : Prop :=
  charListLt (strVal w).data (strVal v).data = false

instance : DecidableRel strLe := fun _ _ => instDecidableEqBool _ _

/-- Order used for `sorted` on the integer group: `v` may precede `w`. -/
def numLe (v w : PyVal) : Prop := numVal v ≤ numVal w

instance : DecidableRel numLe := fun _ _ => Rat.instDecidableLe _ _

/-- The string group of `sorting_list`:
`sorted([x for x in unique_values if isinstance(x, str)])`. -/
def sorting_list_strs (xs : List PyVal) : List PyVal :=
  List.insertionSort strLe ((pySet xs).filter isinstStr)

/-- The integer group of `sorting_list`:
`sorted([x for x in unique_values if isinstance(x, int)])`. -/
def sorting_list_ints (xs : List PyVal) : List PyVal :=
  List.insertionSort numLe ((pySet xs).filter isinstInt)

/-- `sorting_list(json_input, stop)` from `newtutils/utility.py`:
validate that the input is a list of `str`/`int` values, drop duplicates
with `set`, and return the sorted strings followed by the sorted integers.
On a validation failure it reports and: raises `SystemExit` when
`stop=True`, or returns `[]` when `stop=False`.  Each homogeneous group is
sorted by Python `sorted`, modelled by an insertion sort (dedup leaves
the group strictly ordered, so the sorted result is unique).  The
`except Exception` branch is unreachable on this model — on validated input
neither `set` nor `sorted` can raise — so it does not appear. -/
def sorting_list (json_input : PyVal) (stop : Bool) : PyResult (List PyVal) :=
  match validate_input json_input isinstList stop, json_input with
  | .exit, _ => .exit
  | .ok _ false, _ => .ok true []
  | .ok _ true, .pylist xs =>
    if xs.all isinstStrOrInt then
      .ok false (sorting_list_strs xs ++ sorting_list_ints xs)
    else if stop then .exit else .ok true []
  | .ok _ true, _ => .ok true []

/-- `d.get(k)` for a string-keyed dict: the value of the first entry with
key `k`, else `None` (Python dicts have unique keys, so first-match lookup
is exact). -/
def dictGet : List (String × PyVal) → String → PyVal
  | [], _ => .pynone
  | (k2, v) :: t, k => if k2 = k then v else dictGet t k

/-- `d.get(k)` on an arbitrary value (only ever applied to dicts after
validation). -/
def pyGet : PyVal → String → PyVal
  | .pydict d, k => dictGet d k
  | _, _ => .pynone

/-- `sort_key(d)` from `sorting_dict_by_keys`: the tuple
`tuple((d.get(k) is None, d.get(k)) for k in keys)`, flattened to the list
of its 2-tuples. -/
def sortKey (keys : List String) (d : PyVal) : List (Bool × PyVal) :=
  keys.map (fun k => (isPyNone (pyGet d k), pyGet d k))

/-- Python `<` on two composite sort keys (equal-length tuples of
`(bool, value)` pairs): walk left to right; on each pair compare the
booleans first (`False < True`), then the values with `==`/`<`. -/
def keyListLt : List (Bool × PyVal) → List (Bool × PyVal) → Except Unit Bool
  | [], [] => .ok false
  | [], _ :: _ => .ok true
  | _ :: _, [] => .ok false
  | (b1, v1) :: t1, (b2, v2) :: t2 =>
    if b1 = b2 then
      if pyEq v1 v2 then keyListLt t1 t2 else pyLt v1 v2
    else .ok (!b1 && b2)

/-- The comparator `sorted` uses in `sorting_dict_by_keys`:
`sort_key(d) < sort_key(e)`. -/
def recordLt (keys : List String) (d e : PyVal) : Except Unit Bool :=
  keyListLt (sortKey keys d) (sortKey keys e)

/-- Insert `x` into `l` before the first element `y` with `¬ (y < x)`;
a failing comparison propagates like an exception.  One step of a stable
sort: among tied elements the earlier (already present) one stays first. -/
def insertE {α : Type} (lt : α → α → Except Unit Bool) (x : α) :
    List α → Except Unit (List α)
  | [] => .ok [x]
  | y :: ys =>
    match lt y x with
    | .error e => .error e
    | .ok true =>
      match insertE lt x ys with
      | .error e => .error e
      | .ok rest => .ok (y :: rest)
    | .ok false => .ok (x :: y :: ys)

/-- Stable sort in the `Except` monad, modelling CPython stable `sorted`:
with a strict-weak-order comparator the stable result is unique, so the
choice of stable algorithm is irrelevant. -/
def sortE {α : Type} (lt : α → α → Except Unit Bool) :
    List α → Except Unit (List α)
  | [] => .ok []
  | x :: xs =>
    match sortE lt xs with
    | .error e => .error e
    | .ok rest => insertE lt x rest

/-- The comparison `sorted(data, key=sort_key, reverse=reverse)` performs
between two records: `sort_key(d) < sort_key(e)`, with the operands flipped
under `reverse` (CPython `reverse=True` is the stable descending sort). -/
def recordComparator (ks : List String) (reverse : Bool)
    (d e : PyVal) : Except Unit Bool :=
  if reverse then recordLt ks e d else recordLt ks d e

/-- `sorting_dict_by_keys(data, *keys, reverse)` from
`newtutils/utility.py`.  All three validation failures call `error_msg`
with its default `stop=True` and therefore raise `SystemExit(1)`; the
literal `return []` / `return data` lines behind them are unreachable dead
code and have no counterpart here.  The `except Exception` branch around
`sorted` reports with `stop=False` and returns `data` unchanged. -/
def sorting_dict_by_keys (data : PyVal) (keys : List PyVal)
    (reverse : Bool) : PyResult (List PyVal) :=
  match validate_input data isinstList true, data with
  | .exit, _ => .exit
  | .ok _ false, _ => .ok true []
  | .ok _ true, .pylist ds =>
    if ds.all isinstDict then
      if keys.all isinstStr then
        match sortE (recordComparator (keys.map strVal) reverse) ds with
        | .ok out => .ok false out
        | .error _ => .ok true ds
      else .exit
    else .exit
  | .ok _ true, _ => .ok true []

/-- `x` is exactly a `str` or exactly an `int` — the element types named by
the spec for the deduplicating typed sort (excludes `bool`, which Python
`isinstance(x, int)` nevertheless accepts). -/
def isExactScalar : PyVal → Bool
  | .pystr _ => true
  | .pyint _ => true
  | _ => false

/-- Strict ascending code-point order on two `str` values. -/
def strStrictLt (v w : PyVal) : Prop :=
  charListLt (strVal v).data (strVal w).data = true

/-- Strict ascending numeric order on two `int` values. -/
def numStrictLt (v w : PyVal) : Prop := numVal v < numVal w

/-- Pair each list element with its position, starting at `n`. -/
def decorate {α : Type} : List α → Nat → List (α × Nat)
  | [], _ => []
  | x :: xs, n => (x, n) :: decorate xs (n + 1)

/-- The two composite sort keys compare `==`-equal (elementwise equal
flags and `==`-equal values): a tie of the record sort. -/
def keyListEqB : List (Bool × PyVal) → List (Bool × PyVal) → Bool
  | [], [] => true
  | (b1, v1) :: t1, (b2, v2) :: t2 =>
    (b1 == b2) && pyEq v1 v2 && keyListEqB t1 t2
  | _, _ => false

/-- Records `d` and `e` have `==`-equal composite sort keys. -/
def recordTie (ks : List String) (d e : PyVal) : Bool :=
  keyListEqB (sortKey ks d) (sortKey ks e)

/-- Records `d` and `e` tie on the first `m` sort keys: equal
missing/null flags and `==`-equal values ("equal higher-priority keys"). -/
def prefixTie (ks : List String) (m : Nat) (d e : PyVal) : Prop :=
  ∀ l, l < m → ∀ hl : l < ks.length,
    isPyNone (pyGet d (ks.get ⟨l, hl⟩)) = isPyNone (pyGet e (ks.get ⟨l, hl⟩))
    ∧ pyEq (pyGet d (ks.get ⟨l, hl⟩)) (pyGet e (ks.get ⟨l, hl⟩)) = true

/-- `v` is a number or `None`. -/
def numOrNone (v : PyVal) : Bool := (toRatN v).isSome || isPyNone v

/-- `v` is a string or `None`. -/
def strOrNone (v : PyVal) : Bool := isinstStr v || isPyNone v

/-- The condition "all compared values mutually comparable" from the spec, per sort-key
column: in the column of `k`, all present values are numbers, or all are
strings (Python can compare any two numbers and any two strings, and
never compares a present value with a missing/`None` one because the
flag component decides first). -/
def columnOK (ds : List PyVal) (k : String) : Prop :=
  (∀ d ∈ ds, numOrNone (pyGet d k) = true)
  ∨ (∀ d ∈ ds, strOrNone (pyGet d k) = true)

/-- Abstract rank of a comparable value: its numeric value or its code
points.  Ranks of distinct classes never meet in a `columnOK` column; the
cross-class ordering below is arbitrary and never exercised. -/
inductive Rnk where
  | num (q : Rat)
  | strv (cs : List Char)

/-- Three-way comparison of ranks (a linear comparator). -/
def rnkCmp : Rnk → Rnk → Ordering
  | .num a, .num b => if a < b then .lt else if b < a then .gt else .eq
  | .strv a, .strv b =>
    if charListLt a b then .lt else if charListLt b a then .gt else .eq
  | .num _, .strv _ => .lt
  | .strv _, .num _ => .gt

/-- Three-way comparison of missing/null flags (`False < True`). -/
def boolCmp : Bool → Bool → Ordering
  | false, true => .lt
  | true, false => .gt
  | _, _ => .eq

/-- Three-way comparison of one `(flag, rank)` component. -/
def entryCmp (p q : Bool × Rnk) : Ordering :=
  (boolCmp p.1 q.1).then (rnkCmp p.2 q.2)

/-- Lexicographic three-way comparison of abstracted composite keys. -/
def absCmp : List (Bool × Rnk) → List (Bool × Rnk) → Ordering
  | [], [] => .eq
  | [], _ :: _ => .lt
  | _ :: _, [] => .gt
  | p :: t1, q :: t2 => (entryCmp p q).then (absCmp t1 t2)

/-- Abstraction of one sort-key component of a record value. -/
def absEntry (v : PyVal) : Bool × Rnk :=
  (isPyNone v,
    match toRatN v with
    | some q => .num q
    | none =>
      match v with
      | .pystr s => .strv s.data
      | _ => .num 0)

/-- Abstraction of the whole composite sort key of a record. -/
def absKey (ks : List String) (d : PyVal) : List (Bool × Rnk) :=
  ks.map (fun k => absEntry (pyGet d k))

/-! ### Generic lemmas about the stable monadic insertion sort -/

theorem insertE_ok_perm {α : Type} (lt : α → α → Except Unit Bool) (x : α) :
    ∀ (l l' : List α), insertE lt x l = .ok l' → l'.Perm (x :: l) := by
  intro l
  induction l with
  | nil => intro l' h; simp [insertE] at h; subst h; exact List.Perm.refl _
  | cons y ys ih =>
    intro l' h
    rw [insertE] at h
    cases hc : lt y x with
    | error e => rw [hc] at h; exact absurd h (by simp)
    | ok b =>
      rw [hc] at h
      cases b with
      | false =>
        simp at h; subst h; exact List.Perm.refl _
      | true =>
        simp at h
        cases hr : insertE lt x ys with
        | error e => rw [hr] at h; exact absurd h (by simp)
        | ok rest =>
          rw [hr] at h; simp at h; subst h
          exact ((ih rest hr).cons y).trans (List.Perm.swap x y ys)

theorem sortE_ok_perm {α : Type} (lt : α → α → Except Unit Bool) :
    ∀ (l l' : List α), sortE lt l = .ok l' → l'.Perm l := by
  intro l
  induction l with
  | nil => intro l' h; simp [sortE] at h; subst h; exact List.Perm.refl _
  | cons x xs ih =>
    intro l' h
    rw [sortE] at h
    cases hr : sortE lt xs with
    | error e => rw [hr] at h; exact absurd h (by simp)
    | ok rest =>
      rw [hr] at h
      exact (insertE_ok_perm lt x rest l' h).trans ((ih rest hr).cons x)

theorem insertE_pairwise {α : Type} (lt : α → α → Except Unit Bool)
    (R : α → α → Prop) (x : α) :
    ∀ (l l' : List α), insertE lt x l = .ok l' → l.Pairwise R →
      (∀ y ∈ l, lt y x = .ok true → R y x) → (∀ y ∈ l, R x y) →
      l'.Pairwise R := by
  intro l
  induction l with
  | nil =>
    intro l' h _ _ _
    simp [insertE] at h; subst h; simp
  | cons y ys ih =>
    intro l' h hp hskip hput
    rw [insertE] at h
    cases hc : lt y x with
    | error e => rw [hc] at h; exact absurd h (by simp)
    | ok b =>
      rw [hc] at h
      cases b with
      | false =>
        simp at h; subst h
        exact List.Pairwise.cons (fun z hz => hput z hz) hp
      | true =>
        simp at h
        cases hr : insertE lt x ys with
        | error e => rw [hr] at h; exact absurd h (by simp)
        | ok rest =>
          rw [hr] at h; simp at h; subst h
          have hmem : ∀ z ∈ rest, z = x ∨ z ∈ ys := by
            intro z hz
            have := (insertE_ok_perm lt x ys rest hr).mem_iff.mp hz
            simpa using this
          refine List.Pairwise.cons ?_ ?_
          · intro z hz
            rcases hmem z hz with rfl | hz'
            · exact hskip y (by simp) hc
            · exact (List.pairwise_cons.mp hp).1 z hz'
          · exact ih rest hr (List.pairwise_cons.mp hp).2
              (fun z hz ht => hskip z (by simp [hz]) ht)
              (fun z hz => hput z (by simp [hz]))

theorem sortE_pairwise {α : Type} (lt : α → α → Except Unit Bool)
    (R : α → α → Prop) :
    ∀ (l l' : List α), sortE lt l = .ok l' → l.Pairwise R →
      (∀ a ∈ l, ∀ b ∈ l, lt a b = .ok true → R a b) →
      l'.Pairwise R := by
  intro l
  induction l with
  | nil => intro l' h _ _; simp [sortE] at h; subst h; simp
  | cons x xs ih =>
    intro l' h hp hlt
    rw [sortE] at h
    cases hr : sortE lt xs with
    | error e => rw [hr] at h; exact absurd h (by simp)
    | ok rest =>
      rw [hr] at h
      have hrp := sortE_ok_perm lt xs rest hr
      have hrestp : rest.Pairwise R :=
        ih rest hr (List.pairwise_cons.mp hp).2
          (fun a ha b hb => hlt a (by simp [ha]) b (by simp [hb]))
      refine insertE_pairwise lt R x rest l' h hrestp ?_ ?_
      · intro y hy ht
        exact hlt y (by simp [hrp.mem_iff.mp hy]) x (by simp) ht
      · intro y hy
        exact (List.pairwise_cons.mp hp).1 y (hrp.mem_iff.mp hy)

theorem insertE_sorted {α : Type} (lt : α → α → Except Unit Bool) (x : α) :
    ∀ (l l' : List α), insertE lt x l = .ok l' →
      l.Pairwise (fun a b => lt b a ≠ .ok true) →
      (∀ b ∈ l, lt b x = .ok true → lt x b ≠ .ok true) →
      (∀ y z, y ∈ l → z ∈ l → lt z x = .ok true →
        lt z y = .ok true ∨ lt y x = .ok true) →
      l'.Pairwise (fun a b => lt b a ≠ .ok true) := by
  intro l
  induction l with
  | nil => intro l' h _ _ _; simp [insertE] at h; subst h; simp
  | cons y ys ih =>
    intro l' h hp hasymm hcot
    rw [insertE] at h
    cases hc : lt y x with
    | error e => rw [hc] at h; exact absurd h (by simp)
    | ok b =>
      rw [hc] at h
      cases b with
      | false =>
        simp at h; subst h
        refine List.Pairwise.cons ?_ hp
        intro z hz
        rcases List.mem_cons.mp hz with rfl | hz'
        · rw [hc]; simp
        · intro hzx
          rcases hcot y z (by simp) (by simp [hz']) hzx with h1 | h2
          · exact (List.pairwise_cons.mp hp).1 z hz' h1
          · rw [hc] at h2; exact absurd h2 (by simp)
      | true =>
        simp at h
        cases hr : insertE lt x ys with
        | error e => rw [hr] at h; exact absurd h (by simp)
        | ok rest =>
          rw [hr] at h; simp at h; subst h
          have hmem : ∀ z ∈ rest, z = x ∨ z ∈ ys := by
            intro z hz
            have := (insertE_ok_perm lt x ys rest hr).mem_iff.mp hz
            simpa using this
          refine List.Pairwise.cons ?_ ?_
          · intro z hz
            rcases hmem z hz with rfl | hz'
            · exact hasymm y (by simp) hc
            · exact (List.pairwise_cons.mp hp).1 z hz'
          · exact ih rest hr (List.pairwise_cons.mp hp).2
              (fun b hb => hasymm b (by simp [hb]))
              (fun y' z hy' hz => hcot y' z (by simp [hy']) (by simp [hz]))

theorem sortE_sorted {α : Type} (lt : α → α → Except Unit Bool) :
    ∀ (l l' : List α), sortE lt l = .ok l' →
      (∀ a ∈ l, ∀ b ∈ l, lt a b = .ok true → lt b a ≠ .ok true) →
      (∀ x y z, x ∈ l → y ∈ l → z ∈ l → lt z x = .ok true →
        lt z y = .ok true ∨ lt y x = .ok true) →
      l'.Pairwise (fun a b => lt b a ≠ .ok true) := by
  intro l
  induction l with
  | nil => intro l' h _ _; simp [sortE] at h; subst h; simp
  | cons x xs ih =>
    intro l' h hasymm hcot
    rw [sortE] at h
    cases hr : sortE lt xs with
    | error e => rw [hr] at h; exact absurd h (by simp)
    | ok rest =>
      rw [hr] at h
      have hrp := sortE_ok_perm lt xs rest hr
      refine insertE_sorted lt x rest l' h
        (ih rest hr
          (fun a ha b hb => hasymm a (by simp [ha]) b (by simp [hb]))
          (fun a b c ha hb hc =>
            hcot a b c (by simp [ha]) (by simp [hb]) (by simp [hc]))) ?_ ?_
      · intro b hb ht
        exact hasymm b (by simp [hrp.mem_iff.mp hb]) x (by simp) ht
      · intro y z hy hz
        exact hcot x y z (by simp) (by simp [hrp.mem_iff.mp hy])
          (by simp [hrp.mem_iff.mp hz])

theorem insertE_map {α β : Type} (lt : α → α → Except Unit Bool) (f : β → α)
    (x : β) : ∀ (l : List β),
    insertE lt (f x) (l.map f)
      = Except.map (List.map f) (insertE (fun a b => lt (f a) (f b)) x l) := by
  intro l
  induction l with
  | nil => simp [insertE, Except.map]
  | cons y ys ih =>
    rw [List.map_cons, insertE, insertE]
    cases hc : lt (f y) (f x) with
    | error e => simp [Except.map]
    | ok b =>
      cases b with
      | false => simp [Except.map]
      | true =>
        simp only [ih]
        cases hr : insertE (fun a b => lt (f a) (f b)) x ys with
        | error e => simp [Except.map]
        | ok rest => simp [Except.map]

theorem sortE_map {α β : Type} (lt : α → α → Except Unit Bool) (f : β → α) :
    ∀ (l : List β),
    sortE lt (l.map f)
      = Except.map (List.map f) (sortE (fun a b => lt (f a) (f b)) l) := by
  intro l
  induction l with
  | nil => simp [sortE, Except.map]
  | cons x xs ih =>
    rw [List.map_cons, sortE, sortE, ih]
    cases hr : sortE (fun a b => lt (f a) (f b)) xs with
    | error e => simp [Except.map]
    | ok rest => simp [Except.map, insertE_map]

theorem sortE_const_false {α : Type} (lt : α → α → Except Unit Bool) :
    ∀ (l : List α), (∀ a ∈ l, ∀ b ∈ l, lt a b = .ok false) →
      sortE lt l = .ok l := by
  intro l
  induction l with
  | nil => simp [sortE]
  | cons x xs ih =>
    intro h
    rw [sortE, ih (fun a ha b hb => h a (by simp [ha]) b (by simp [hb]))]
    cases xs with
    | nil => simp [insertE]
    | cons y ys => simp only [insertE, h y (by simp) x (by simp)]

/-! ### Position decoration (for stability statements) -/

theorem decorate_map_fst {α : Type} :
    ∀ (l : List α) (n : Nat), (decorate l n).map Prod.fst = l := by
  intro l
  induction l with
  | nil => intro n; simp [decorate]
  | cons x xs ih => intro n; simp [decorate, ih]

theorem decorate_length {α : Type} :
    ∀ (l : List α) (n : Nat), (decorate l n).length = l.length := by
  intro l
  induction l with
  | nil => intro n; simp [decorate]
  | cons x xs ih => intro n; simp [decorate, ih]

theorem decorate_get {α : Type} :
    ∀ (l : List α) (n i : Nat) (h : i < (decorate l n).length)
      (h' : i < l.length),
      (decorate l n).get ⟨i, h⟩ = (l.get ⟨i, h'⟩, n + i) := by
  intro l
  induction l with
  | nil => intro n i h h'; simp at h'
  | cons x xs ih =>
    intro n i h h'
    cases i with
    | zero => simp [decorate]
    | succ j =>
      have hj : j < (decorate xs (n + 1)).length := by
        simp [decorate] at h; omega
      have hj' : j < xs.length := by simp at h'; omega
      simp only [decorate, List.get_cons_succ]
      rw [ih (n + 1) j hj hj']
      simp; omega

theorem decorate_mem_snd_ge {α : Type} :
    ∀ (l : List α) (n : Nat) (p : α × Nat), p ∈ decorate l n → n ≤ p.2 := by
  intro l
  induction l with
  | nil => intro n p h; simp [decorate] at h
  | cons x xs ih =>
    intro n p h
    rcases List.mem_cons.mp (by simpa [decorate] using h) with rfl | h'
    · simp
    · have := ih (n + 1) p h'; omega

theorem decorate_pairwise_snd {α : Type} :
    ∀ (l : List α) (n : Nat),
      (decorate l n).Pairwise (fun p q => p.2 < q.2) := by
  intro l
  induction l with
  | nil => intro n; simp [decorate]
  | cons x xs ih =>
    intro n
    refine List.Pairwise.cons ?_ (ih (n + 1))
    intro q hq
    have := decorate_mem_snd_ge xs (n + 1) q hq
    simp; omega

theorem sortE_decorated {α : Type} (lt : α → α → Except Unit Bool)
    (l out : List α) (h : sortE lt l = .ok out) :
    ∃ out', sortE (fun a b => lt a.1 b.1) (decorate l 0) = .ok out'
      ∧ out'.map Prod.fst = out := by
  have hm := sortE_map lt Prod.fst (decorate l 0)
  rw [decorate_map_fst l 0, h] at hm
  cases hr : sortE (fun a b => lt (Prod.fst a) (Prod.fst b)) (decorate l 0) with
  | error e => rw [hr] at hm; exact absurd hm (by simp [Except.map])
  | ok out' =>
    rw [hr] at hm
    simp [Except.map] at hm
    exact ⟨out', rfl, hm.symm⟩

/-! ### Symmetry of Python equality -/

theorem natBeq_comm (a b : Nat) : (a == b) = (b == a) := by
  by_cases h : a = b
  · subst h; rfl
  · rw [beq_eq_false_iff_ne.mpr h, beq_eq_false_iff_ne.mpr (Ne.symm h)]

mutual

theorem pyEq_symm (v w : PyVal) : pyEq v w = pyEq w v := by
  cases v <;> cases w <;>
    simp only [pyEq] <;>
    first
    | rfl
    | (rename_i a b; exact pyEqList_symm a b)
    | (constructor <;> omega)
    | simp [eq_comm, Bool.and_comm, Bool.and_left_comm, Bool.and_assoc, natBeq_comm]
  termination_by sizeOf v + sizeOf w
  decreasing_by all_goals (simp_wf <;> omega)

theorem pyEqList_symm (xs ys : List PyVal) : pyEqList xs ys = pyEqList ys xs := by
  cases xs with
  | nil => cases ys <;> simp [pyEqList]
  | cons x xs =>
    cases ys with
    | nil => simp [pyEqList]
    | cons y ys =>
      simp only [pyEqList]
      rw [pyEq_symm x y, pyEqList_symm xs ys]
  termination_by sizeOf xs + sizeOf ys
  decreasing_by all_goals (simp_wf <;> omega)

end

/-! ### Ties of the record comparator -/

theorem boolBeq_comm (a b : Bool) : (a == b) = (b == a) := by
  cases a <;> cases b <;> rfl

theorem keyListEqB_symm : ∀ K1 K2, keyListEqB K1 K2 = keyListEqB K2 K1 := by
  intro K1
  induction K1 with
  | nil => intro K2; cases K2 <;> simp [keyListEqB]
  | cons p t1 ih =>
    intro K2
    cases K2 with
    | nil => cases p; simp [keyListEqB]
    | cons q t2 =>
      cases p; cases q
      simp only [keyListEqB]
      rename_i b1 v1 b2 v2
      rw [boolBeq_comm b1 b2, pyEq_symm v1 v2, ih t2]

theorem keyListLt_of_eqB : ∀ K1 K2, keyListEqB K1 K2 = true →
    keyListLt K1 K2 = .ok false := by
  intro K1
  induction K1 with
  | nil => intro K2 h; cases K2 <;> simp_all [keyListEqB, keyListLt]
  | cons p t1 ih =>
    intro K2 h
    cases K2 with
    | nil => cases p; simp [keyListEqB] at h
    | cons q t2 =>
      cases p; cases q
      rename_i b1 v1 b2 v2
      simp only [keyListEqB, Bool.and_eq_true, beq_iff_eq] at h
      obtain ⟨⟨hb, hv⟩, ht⟩ := h
      subst hb
      simp only [keyListLt, if_pos rfl, hv, if_pos]
      exact ih t2 ht

theorem recordTie_lt_false (ks : List String) (d e : PyVal)
    (h : recordTie ks d e = true) :
    recordLt ks d e = .ok false ∧ recordLt ks e d = .ok false := by
  constructor
  · exact keyListLt_of_eqB _ _ h
  · refine keyListLt_of_eqB _ _ ?_
    rw [keyListEqB_symm]
    exact h

/-! ### The code-point order is linear -/

theorem char_eq_of_toNat_eq (c d : Char) (h : c.toNat = d.toNat) : c = d := by
  apply Char.ext
  apply UInt32.ext
  exact h

theorem charListLt_irrefl : ∀ a, charListLt a a = false := by
  intro a
  induction a with
  | nil => rfl
  | cons c cs ih => simp [charListLt, ih]

theorem charListLt_asymm : ∀ a b, charListLt a b = true →
    charListLt b a = false := by
  intro a
  induction a with
  | nil => intro b h; cases b <;> simp_all [charListLt]
  | cons c cs ih =>
    intro b h
    cases b with
    | nil => simp [charListLt] at h
    | cons d ds =>
      simp only [charListLt] at h ⊢
      by_cases h1 : c.toNat < d.toNat
      · have h2 : ¬ d.toNat < c.toNat := by omega
        simp [h1, h2]
      · by_cases h2 : d.toNat < c.toNat
        · simp [h1, h2] at h
        · simp [h1, h2] at h ⊢
          exact ih ds h

theorem charListLt_trans : ∀ a b c, charListLt a b = true →
    charListLt b c = true → charListLt a c = true := by
  intro a
  induction a with
  | nil =>
    intro b c h1 h2
    cases b with
    | nil => simp [charListLt] at h1
    | cons d ds => cases c <;> simp_all [charListLt]
  | cons x xs ih =>
    intro b c h1 h2
    cases b with
    | nil => simp [charListLt] at h1
    | cons y ys =>
      cases c with
      | nil => simp [charListLt] at h2
      | cons z zs =>
        simp only [charListLt] at h1 h2 ⊢
        by_cases hxy : x.toNat < y.toNat
        · by_cases hyz : y.toNat < z.toNat
          · have hxz : x.toNat < z.toNat := by omega
            simp [hxz]
          · by_cases hzy : z.toNat < y.toNat
            · simp [hyz, hzy] at h2
            · have hxz : x.toNat < z.toNat := by omega
              simp [hxz]
        · by_cases hyx : y.toNat < x.toNat
          · simp [hxy, hyx] at h1
          · by_cases hyz : y.toNat < z.toNat
            · have hxz : x.toNat < z.toNat := by omega
              simp [hxz]
            · by_cases hzy : z.toNat < y.toNat
              · simp [hyz, hzy] at h2
              · simp only [hxy, hyx, if_false] at h1
                simp only [hyz, hzy, if_false] at h2
                have hxz : ¬ x.toNat < z.toNat := by omega
                have hzx : ¬ z.toNat < x.toNat := by omega
                simp only [hxz, hzx, if_false]
                exact ih ys zs h1 h2

theorem charListLt_eq_of_nlt : ∀ a b, charListLt a b = false →
    charListLt b a = false → a = b := by
  intro a
  induction a with
  | nil => intro b h1 _; cases b <;> simp_all [charListLt]
  | cons c cs ih =>
    intro b h1 h2
    cases b with
    | nil => simp [charListLt] at h2
    | cons d ds =>
      simp only [charListLt] at h1 h2
      by_cases hcd : c.toNat < d.toNat
      · simp [hcd] at h1
      · by_cases hdc : d.toNat < c.toNat
        · simp [hdc] at h2
        · simp only [hcd, hdc, if_false] at h1 h2
          have : c = d := char_eq_of_toNat_eq c d (by omega)
          rw [this, ih ds h1 h2]

/-! ### The abstract comparator is a linear comparator -/

theorem rnkCmp_swap : ∀ a b, rnkCmp a b = (rnkCmp b a).swap := by
  intro a b
  cases a <;> cases b <;> simp only [rnkCmp]
  case num.num p q =>
    rcases lt_trichotomy p q with h | h | h
    · rw [if_pos h, if_neg (lt_asymm h), if_pos h]; rfl
    · subst h; rw [if_neg (lt_irrefl p), if_neg (lt_irrefl p)]; rfl
    · rw [if_neg (lt_asymm h), if_pos h, if_pos h]; rfl
  case num.strv q cs => rfl
  case strv.num cs q => rfl
  case strv.strv a b =>
    cases hab : charListLt a b with
    | true =>
      rw [charListLt_asymm a b hab]
      rfl
    | false =>
      cases hba : charListLt b a with
      | true => rfl
      | false => rfl

theorem rnkCmp_lt_trans : ∀ a b c, rnkCmp a b = .lt → rnkCmp b c = .lt →
    rnkCmp a c = .lt := by
  intro a b c h1 h2
  cases a <;> cases b <;> cases c <;> simp only [rnkCmp] at h1 h2 ⊢
  case num.num.num p q r =>
    have hpq : p < q := by
      by_contra hc
      rw [if_neg hc] at h1
      split_ifs at h1 <;> simp_all
    have hqr : q < r := by
      by_contra hc
      rw [if_neg hc] at h2
      split_ifs at h2 <;> simp_all
    rw [if_pos (lt_trans hpq hqr)]
  case num.strv.num p cs r => simp at h2
  case strv.num.num cs p q => simp at h1
  case strv.num.strv cs p ds => simp at h1
  case strv.strv.num a' b' p => simp at h2
  case strv.strv.strv a' b' c' =>
    have h1' : charListLt a' b' = true := by
      by_contra hc
      rw [if_neg (by simpa using hc)] at h1
      split_ifs at h1 <;> simp_all
    have h2' : charListLt b' c' = true := by
      by_contra hc
      rw [if_neg (by simpa using hc)] at h2
      split_ifs at h2 <;> simp_all
    rw [if_pos (charListLt_trans a' b' c' h1' h2')]

theorem rnkCmp_eq_congr : ∀ a b c, rnkCmp a b = .eq →
    rnkCmp a c = rnkCmp b c := by
  intro a b c h
  cases a <;> cases b
  case num.num p q =>
    simp only [rnkCmp] at h
    have : p = q := by
      by_contra hc
      rcases lt_or_gt_of_ne hc with h' | h'
      · rw [if_pos h'] at h; simp at h
      · rw [if_neg (lt_asymm h'), if_pos h'] at h; simp at h
    subst this; rfl
  case num.strv p cs => simp [rnkCmp] at h
  case strv.num cs p => simp [rnkCmp] at h
  case strv.strv a' b' =>
    simp only [rnkCmp] at h
    have h1 : charListLt a' b' = false := by
      by_contra hc
      rw [if_pos (by simpa using hc)] at h; simp at h
    have h2 : charListLt b' a' = false := by
      by_contra hc
      rw [if_neg (by simp [h1]), if_pos (by simpa using hc)] at h; simp at h
    have : a' = b' := charListLt_eq_of_nlt a' b' h1 h2
    subst this; rfl

theorem boolCmp_swap : ∀ a b, boolCmp a b = (boolCmp b a).swap := by
  intro a b; cases a <;> cases b <;> rfl

theorem boolCmp_eq_iff : ∀ a b, boolCmp a b = .eq ↔ a = b := by
  intro a b; cases a <;> cases b <;> simp [boolCmp]

theorem entryCmp_swap : ∀ p q, entryCmp p q = (entryCmp q p).swap := by
  intro p q
  obtain ⟨b1, r1⟩ := p
  obtain ⟨b2, r2⟩ := q
  simp only [entryCmp]
  rw [boolCmp_swap b1 b2, rnkCmp_swap r1 r2]
  cases boolCmp b2 b1 <;> cases rnkCmp r2 r1 <;> rfl

theorem entryCmp_lt_trans : ∀ p q r, entryCmp p q = .lt → entryCmp q r = .lt →
    entryCmp p r = .lt := by
  intro p q r h1 h2
  obtain ⟨b1, r1⟩ := p
  obtain ⟨b2, r2⟩ := q
  obtain ⟨b3, r3⟩ := r
  simp only [entryCmp] at h1 h2 ⊢
  cases b1 <;> cases b2 <;> cases b3 <;>
    simp only [boolCmp, Ordering.then] at h1 h2 ⊢ <;>
    try (exact rnkCmp_lt_trans _ _ _ h1 h2)
  all_goals simp_all

theorem entryCmp_eq_congr : ∀ p q r, entryCmp p q = .eq →
    entryCmp p r = entryCmp q r := by
  intro p q r h
  obtain ⟨b1, r1⟩ := p
  obtain ⟨b2, r2⟩ := q
  obtain ⟨b3, r3⟩ := r
  simp only [entryCmp] at h ⊢
  cases b1 <;> cases b2 <;>
    simp only [boolCmp, Ordering.then] at h ⊢ <;>
    try simp_all
  · rw [rnkCmp_eq_congr r1 r2 r3 h]
  · rw [rnkCmp_eq_congr r1 r2 r3 h]

theorem absCmp_swap : ∀ A B, absCmp A B = (absCmp B A).swap := by
  intro A
  induction A with
  | nil => intro B; cases B <;> rfl
  | cons p t1 ih =>
    intro B
    cases B with
    | nil => rfl
    | cons q t2 =>
      simp only [absCmp]
      rw [entryCmp_swap p q, ih t2]
      cases entryCmp q p <;> cases absCmp t2 t1 <;> rfl

theorem entryCmp_eq_congr_r : ∀ p q r, entryCmp q r = .eq →
    entryCmp p r = entryCmp p q := by
  intro p q r h
  have h' : entryCmp r q = .eq := by rw [entryCmp_swap r q, h]; rfl
  rw [entryCmp_swap p r, entryCmp_eq_congr r q p h', ← entryCmp_swap p q]

theorem absCmp_lt_trans : ∀ A B C, absCmp A B = .lt → absCmp B C = .lt →
    absCmp A C = .lt := by
  intro A
  induction A with
  | nil =>
    intro B C h1 h2
    cases B with
    | nil => exact h2
    | cons q t2 =>
      cases C with
      | nil => simp [absCmp] at h2
      | cons r t3 => rfl
  | cons p t1 ih =>
    intro B C h1 h2
    cases B with
    | nil => simp [absCmp] at h1
    | cons q t2 =>
      cases C with
      | nil => simp [absCmp] at h2
      | cons r t3 =>
        simp only [absCmp] at h1 h2 ⊢
        cases e1 : entryCmp p q <;> rw [e1] at h1 <;>
          simp only [Ordering.then] at h1
        · cases e2 : entryCmp q r <;> rw [e2] at h2 <;>
            simp only [Ordering.then] at h2
          · rw [entryCmp_lt_trans p q r e1 e2]; rfl
          · rw [entryCmp_eq_congr_r p q r e2, e1]; rfl
          · exact absurd h2 (by simp)
        · cases e2 : entryCmp q r <;> rw [e2] at h2 <;>
            simp only [Ordering.then] at h2
          · rw [entryCmp_eq_congr p q r e1, e2]; rfl
          · rw [entryCmp_eq_congr p q r e1, e2]
            simp only [Ordering.then]
            exact ih t2 t3 h1 h2
          · exact absurd h2 (by simp)
        · exact absurd h1 (by simp)

theorem absCmp_eq_congr : ∀ A B C, absCmp A B = .eq →
    absCmp A C = absCmp B C := by
  intro A
  induction A with
  | nil =>
    intro B C h
    cases B with
    | nil => rfl
    | cons q t2 => simp [absCmp] at h
  | cons p t1 ih =>
    intro B C h
    cases B with
    | nil => simp [absCmp] at h
    | cons q t2 =>
      simp only [absCmp] at h
      cases e1 : entryCmp p q <;> rw [e1] at h <;>
        simp only [Ordering.then] at h
      · exact absurd h (by simp)
      · cases C with
        | nil => rfl
        | cons r t3 =>
          simp only [absCmp]
          rw [entryCmp_eq_congr p q r e1, ih t2 t3 h]
      · exact absurd h (by simp)

/-! ### Evaluation of the Python comparator on comparable values -/

theorem isPyNone_iff (v : PyVal) : isPyNone v = true ↔ v = .pynone := by
  cases v <;> simp [isPyNone]

theorem intBeq_eq_decide (a b : Int) : (a == b) = decide (a = b) := by
  by_cases h : a = b
  · subst h; simp
  · simp [h]

theorem string_ext_data (s t : String) (h : s.data = t.data) : s = t := by
  cases s with
  | mk d1 =>
    cases t with
    | mk d2 => simp only at h; subst h; rfl

theorem pyEq_num (v w : PyVal) (qv qw : Rat) (hv : toRatN v = some qv)
    (hw : toRatN w = some qw) : pyEq v w = decide (qv = qw) := by
  cases v <;> simp only [toRatN] at hv <;> try exact Option.noConfusion hv
  all_goals cases w <;> simp only [toRatN] at hw <;>
    try exact Option.noConfusion hw
  all_goals (injection hv with hv; injection hw with hw; subst hv; subst hw)
  case pybool.pybool a b =>
    cases a <;> cases b <;> simp [pyEq, boolAsInt] <;> norm_num
  case pybool.pyint a m =>
    simp only [pyEq]; rw [intBeq_eq_decide]
    exact decide_eq_decide.mpr Int.cast_inj.symm
  case pybool.pyfloat a q => simp [pyEq]
  case pyint.pybool n b =>
    simp only [pyEq]; rw [intBeq_eq_decide]
    exact decide_eq_decide.mpr Int.cast_inj.symm
  case pyint.pyint n m =>
    simp only [pyEq]; rw [intBeq_eq_decide]
    exact decide_eq_decide.mpr Int.cast_inj.symm
  case pyint.pyfloat n q => simp [pyEq]
  case pyfloat.pybool p b => simp [pyEq]
  case pyfloat.pyint p m => simp [pyEq]
  case pyfloat.pyfloat p q => simp [pyEq]

theorem pyLt_num (v w : PyVal) (qv qw : Rat) (hv : toRatN v = some qv)
    (hw : toRatN w = some qw) : pyLt v w = .ok (decide (qv < qw)) := by
  cases v <;> simp only [toRatN] at hv <;> try exact Option.noConfusion hv
  all_goals cases w <;> simp only [toRatN] at hw <;>
    try exact Option.noConfusion hw
  all_goals (injection hv with hv; injection hw with hw; subst hv; subst hw)
  case pybool.pybool a b =>
    cases a <;> cases b <;> simp [pyLt, boolAsInt] <;> norm_num
  case pybool.pyint a m =>
    simp only [pyLt, Except.ok.injEq]
    exact decide_eq_decide.mpr Int.cast_lt.symm
  case pybool.pyfloat a q => simp [pyLt]
  case pyint.pybool n b =>
    simp only [pyLt, Except.ok.injEq]
    exact decide_eq_decide.mpr Int.cast_lt.symm
  case pyint.pyint n m =>
    simp only [pyLt, Except.ok.injEq]
    exact decide_eq_decide.mpr Int.cast_lt.symm
  case pyint.pyfloat n q => simp [pyLt]
  case pyfloat.pybool p b => simp [pyLt]
  case pyfloat.pyint p m => simp [pyLt]
  case pyfloat.pyfloat p q => simp [pyLt]

theorem rnkCmp_refl (r : Rnk) : rnkCmp r r = .eq := by
  cases r with
  | num q => simp [rnkCmp]
  | strv cs => simp [rnkCmp, charListLt_irrefl]

theorem entryCmp_refl (p : Bool × Rnk) : entryCmp p p = .eq := by
  obtain ⟨b, r⟩ := p
  cases b <;> simp [entryCmp, boolCmp, rnkCmp_refl, Ordering.then]

theorem entryCmp_eq_of_pyEq (v w : PyVal) (hb : isPyNone v = isPyNone w)
    (he : pyEq v w = true) : entryCmp (absEntry v) (absEntry w) = .eq := by
  cases v <;> cases w <;> simp only [pyEq] at he <;>
    try exact Bool.noConfusion he
  case pynone.pynone => exact entryCmp_refl _
  case pybool.pybool a b =>
    have : a = b := by simpa using he
    subst this; exact entryCmp_refl _
  case pybool.pyint a m =>
    have : boolAsInt a = m := by simpa using he
    simp only [absEntry, toRatN, this]
    exact entryCmp_refl _
  case pybool.pyfloat a q =>
    have : ((boolAsInt a : Int) : Rat) = q := by simpa using he
    simp only [absEntry, toRatN, this]
    exact entryCmp_refl _
  case pyint.pybool n b =>
    have : n = boolAsInt b := by simpa using he
    simp only [absEntry, toRatN, this]
    exact entryCmp_refl _
  case pyint.pyint n m =>
    have : n = m := by simpa using he
    subst this; exact entryCmp_refl _
  case pyint.pyfloat n q =>
    have : ((n : Int) : Rat) = q := by simpa using he
    simp only [absEntry, toRatN, this]
    exact entryCmp_refl _
  case pyfloat.pybool p b =>
    have : p = ((boolAsInt b : Int) : Rat) := by simpa using he
    simp only [absEntry, toRatN, this]
    exact entryCmp_refl _
  case pyfloat.pyint p m =>
    have : p = ((m : Int) : Rat) := by simpa using he
    simp only [absEntry, toRatN, this]
    exact entryCmp_refl _
  case pyfloat.pyfloat p q =>
    have : p = q := by simpa using he
    subst this; exact entryCmp_refl _
  case pystr.pystr s t =>
    have : s = t := by simpa using he
    subst this; exact entryCmp_refl _
  case pylist.pylist xs ys => exact entryCmp_refl _
  case pytuple.pytuple xs ys => exact entryCmp_refl _
  case pydict.pydict d1 d2 => exact entryCmp_refl _

theorem numOrNone_some (v : PyVal) (h : numOrNone v = true)
    (hn : isPyNone v = false) : ∃ q, toRatN v = some q := by
  simp only [numOrNone, hn, Bool.or_false] at h
  exact Option.isSome_iff_exists.mp h

theorem strOrNone_str (v : PyVal) (h : strOrNone v = true)
    (hn : isPyNone v = false) : ∃ s, v = .pystr s := by
  cases v <;> simp_all [strOrNone, isinstStr, isPyNone]

theorem absEntry_num (v : PyVal) (q : Rat) (h : toRatN v = some q) :
    absEntry v = (isPyNone v, .num q) := by
  simp [absEntry, h]

theorem absEntry_str (s : String) :
    absEntry (.pystr s) = (false, .strv s.data) := by
  simp [absEntry, toRatN, isPyNone]

theorem sortKey_cons (k : String) (kt : List String) (d : PyVal) :
    sortKey (k :: kt) d
      = (isPyNone (pyGet d k), pyGet d k) :: sortKey kt d := by
  simp [sortKey]

theorem absKey_cons (k : String) (kt : List String) (d : PyVal) :
    absKey (k :: kt) d = absEntry (pyGet d k) :: absKey kt d := by
  simp [absKey]

theorem keyLt_eval : ∀ (ks : List String) (d e : PyVal),
    (∀ k ∈ ks,
      (numOrNone (pyGet d k) = true ∧ numOrNone (pyGet e k) = true)
      ∨ (strOrNone (pyGet d k) = true ∧ strOrNone (pyGet e k) = true)) →
    keyListLt (sortKey ks d) (sortKey ks e)
      = .ok (decide (absCmp (absKey ks d) (absKey ks e) = .lt)) := by
  intro ks
  induction ks with
  | nil => intro d e _; simp [sortKey, absKey, keyListLt, absCmp]
  | cons k kt ih =>
    intro d e hcl
    have hk := hcl k (by simp)
    have htail : ∀ k' ∈ kt,
        (numOrNone (pyGet d k') = true ∧ numOrNone (pyGet e k') = true)
        ∨ (strOrNone (pyGet d k') = true ∧ strOrNone (pyGet e k') = true) :=
      fun k' hk' => hcl k' (by simp [hk'])
    rw [sortKey_cons, sortKey_cons, absKey_cons, absKey_cons]
    generalize hveq : pyGet d k = v
    generalize hweq : pyGet e k = w
    rw [hveq, hweq] at hk
    by_cases hb : isPyNone v = isPyNone w
    · by_cases he : pyEq v w = true
      · have hec := entryCmp_eq_of_pyEq v w hb he
        rw [keyListLt, if_pos hb, if_pos he, ih d e htail]
        simp only [absCmp, hec, Ordering.then]
      · -- values differ; flags must both be `false`
        have hbf : isPyNone v = false := by
          by_contra hc
          have hv' : v = .pynone := (isPyNone_iff v).mp (by simpa using hc)
          have hw' : w = .pynone := (isPyNone_iff w).mp (by
            rw [← hb]; simpa using hc)
          rw [hv', hw'] at he
          simp [pyEq] at he
        have hwf : isPyNone w = false := by rw [← hb]; exact hbf
        rw [keyListLt, if_pos hb, if_neg he]
        rcases hk with ⟨hn1, hn2⟩ | ⟨hs1, hs2⟩
        · obtain ⟨qv, hqv⟩ := numOrNone_some v hn1 hbf
          obtain ⟨qw, hqw⟩ := numOrNone_some w hn2 hwf
          have hne : ¬ (qv = qw) := by
            intro hqe
            rw [pyEq_num v w qv qw hqv hqw] at he
            simp [hqe] at he
          rw [pyLt_num v w qv qw hqv hqw,
            absEntry_num v qv hqv, absEntry_num w qw hqw]
          simp only [absCmp, entryCmp, hbf, hwf, boolCmp, Ordering.then,
            rnkCmp]
          rcases lt_trichotomy qv qw with hlt | heq | hgt
          · rw [if_pos hlt]; simp [hlt]
          · exact absurd heq hne
          · rw [if_neg (lt_asymm hgt), if_pos hgt]; simp [not_lt_of_gt hgt]
        · obtain ⟨s, hs⟩ := strOrNone_str v hs1 hbf
          obtain ⟨t, ht⟩ := strOrNone_str w hs2 hwf
          subst hs; subst ht
          have hst : ¬ (s = t) := by
            intro hse
            subst hse
            simp [pyEq] at he
          have hlt : pyLt (.pystr s) (.pystr t)
              = .ok (charListLt s.data t.data) := by simp [pyLt]
          rw [hlt, absEntry_str, absEntry_str]
          simp only [absCmp, entryCmp, boolCmp, Ordering.then, rnkCmp]
          by_cases h1 : charListLt s.data t.data = true
          · simp [h1]
          · have h1' : charListLt s.data t.data = false := by simpa using h1
            by_cases h2 : charListLt t.data s.data = true
            · simp [h1', h2]
            · exact absurd (string_ext_data s t
                (charListLt_eq_of_nlt _ _ h1' (by simpa using h2))) hst
    · rw [keyListLt, if_neg hb]
      cases hb1 : isPyNone v <;> cases hb2 : isPyNone w
      · exact absurd (hb1.trans hb2.symm) hb
      · simp [hb1, hb2, absEntry, absCmp, entryCmp, boolCmp, Ordering.then]
      · simp [hb1, hb2, absEntry, absCmp, entryCmp, boolCmp, Ordering.then]
      · exact absurd (hb1.trans hb2.symm) hb

/-! ### The record comparator is a strict weak order on comparable data -/

theorem recordLt_eval (ks : List String) (ds : List PyVal) (d e : PyVal)
    (hck : ∀ k ∈ ks, columnOK ds k) (hd : d ∈ ds) (he : e ∈ ds) :
    recordLt ks d e
      = .ok (decide (absCmp (absKey ks d) (absKey ks e) = .lt)) := by
  apply keyLt_eval
  intro k hk
  rcases hck k hk with h | h
  · exact Or.inl ⟨h d hd, h e he⟩
  · exact Or.inr ⟨h d hd, h e he⟩

theorem absCmp_lt_asymm (A B : List (Bool × Rnk)) (h : absCmp A B = .lt) :
    absCmp B A ≠ .lt := by
  intro h2
  have := absCmp_swap A B
  rw [h, h2] at this
  exact Ordering.noConfusion this

theorem absCmp_lt_cotrans (A B C : List (Bool × Rnk)) (h : absCmp A B = .lt) :
    absCmp A C = .lt ∨ absCmp C B = .lt := by
  cases e : absCmp A C with
  | lt => exact Or.inl rfl
  | eq =>
    have e' : absCmp C A = .eq := by
      have := absCmp_swap A C
      rw [e] at this
      cases e2 : absCmp C A <;> rw [e2] at this <;> simp_all [Ordering.swap]
    exact Or.inr (by rw [absCmp_eq_congr C A B e', h])
  | gt =>
    have e' : absCmp C A = .lt := by
      have := absCmp_swap C A
      rw [absCmp_swap A C] at e
      cases e2 : absCmp C A <;> rw [e2] at e <;> simp_all [Ordering.swap]
    exact Or.inr (absCmp_lt_trans C A B e' h)

theorem recordComparator_asymm (ks : List String) (reverse : Bool)
    (ds : List PyVal) (hck : ∀ k ∈ ks, columnOK ds k) (a b : PyVal)
    (ha : a ∈ ds) (hb : b ∈ ds)
    (h : recordComparator ks reverse a b = .ok true) :
    recordComparator ks reverse b a ≠ .ok true := by
  have key : ∀ x y, x ∈ ds → y ∈ ds → recordLt ks x y = .ok true →
      recordLt ks y x ≠ .ok true := by
    intro x y hx hy hxy hyx
    rw [recordLt_eval ks ds x y hck hx hy] at hxy
    rw [recordLt_eval ks ds y x hck hy hx] at hyx
    simp only [Except.ok.injEq, decide_eq_true_eq] at hxy hyx
    exact absCmp_lt_asymm _ _ hxy hyx
  cases reverse with
  | false => exact key a b ha hb (by simpa [recordComparator] using h) ∘
      (by simpa [recordComparator] using ·)
  | true => exact key b a hb ha (by simpa [recordComparator] using h) ∘
      (by simpa [recordComparator] using ·)

theorem recordComparator_cotrans (ks : List String) (reverse : Bool)
    (ds : List PyVal) (hck : ∀ k ∈ ks, columnOK ds k) (x y z : PyVal)
    (hx : x ∈ ds) (hy : y ∈ ds) (hz : z ∈ ds)
    (h : recordComparator ks reverse z x = .ok true) :
    recordComparator ks reverse z y = .ok true
      ∨ recordComparator ks reverse y x = .ok true := by
  have key : ∀ a b c, a ∈ ds → b ∈ ds → c ∈ ds →
      recordLt ks a b = .ok true →
      recordLt ks a c = .ok true ∨ recordLt ks c b = .ok true := by
    intro a b c ha hb hc hab
    rw [recordLt_eval ks ds a b hck ha hb] at hab
    simp only [Except.ok.injEq, decide_eq_true_eq] at hab
    rw [recordLt_eval ks ds a c hck ha hc,
      recordLt_eval ks ds c b hck hc hb]
    rcases absCmp_lt_cotrans _ _ (absKey ks c) hab with h' | h'
    · exact Or.inl (by simp [h'])
    · exact Or.inr (by simp [h'])
  cases reverse with
  | false =>
    simp only [recordComparator, if_neg (by simp : ¬ false = true)] at h ⊢
    exact key z x y hz hx hy h
  | true =>
    simp only [recordComparator, if_pos rfl] at h ⊢
    rcases key x z y hx hz hy h with h' | h'
    · exact Or.inr h'
    · exact Or.inl h'

/-! ### Missing-last placement at the abstract level -/

theorem prefixTie_symm (ks : List String) (m : Nat) (d e : PyVal)
    (h : prefixTie ks m d e) : prefixTie ks m e d := by
  intro l hl hl'
  obtain ⟨h1, h2⟩ := h l hl hl'
  exact ⟨h1.symm, by rw [pyEq_symm]; exact h2⟩

theorem prefixTie_tail (k : String) (kt : List String) (m : Nat) (d e : PyVal)
    (h : prefixTie (k :: kt) (m + 1) d e) : prefixTie kt m d e := by
  intro l hl hl'
  have := h (l + 1) (by omega) (by simpa using Nat.succ_lt_succ hl')
  simpa using this

theorem prefixTie_head (k : String) (kt : List String) (m : Nat) (d e : PyVal)
    (h : prefixTie (k :: kt) (m + 1) d e) :
    isPyNone (pyGet d k) = isPyNone (pyGet e k)
    ∧ pyEq (pyGet d k) (pyGet e k) = true := by
  have := h 0 (by omega) (by simp)
  simpa using this

theorem absKey_prefix_lt : ∀ (ks : List String) (m : Nat) (d e : PyVal)
    (hm : m < ks.length), prefixTie ks m d e →
    isPyNone (pyGet d (ks.get ⟨m, hm⟩)) = false →
    isPyNone (pyGet e (ks.get ⟨m, hm⟩)) = true →
    absCmp (absKey ks d) (absKey ks e) = .lt := by
  intro ks
  induction ks with
  | nil => intro m d e hm; exact absurd hm (by simp)
  | cons k kt ih =>
    intro m d e hm htie hd he
    cases m with
    | zero =>
      simp only [List.get] at hd he
      rw [absKey_cons, absKey_cons]
      simp only [absCmp, absEntry, hd, he, entryCmp, boolCmp, Ordering.then]
    | succ m' =>
      obtain ⟨hb, hv⟩ := prefixTie_head k kt m' d e htie
      have hec := entryCmp_eq_of_pyEq _ _ hb hv
      rw [absKey_cons, absKey_cons]
      simp only [absCmp, hec, Ordering.then]
      exact ih m' d e (by simpa using Nat.lt_of_succ_lt_succ hm)
        (prefixTie_tail k kt m' d e htie)
        (by simpa using hd) (by simpa using he)

theorem recordTie_symm (ks : List String) (d e : PyVal)
    (h : recordTie ks d e = true) : recordTie ks e d = true := by
  rw [recordTie, keyListEqB_symm]
  exact h

/-! ### Deduplication (`set`) on exact scalars -/

theorem pyEq_exact (x y : PyVal) (hx : isExactScalar x = true)
    (hy : isExactScalar y = true) : pyEq x y = true ↔ x = y := by
  cases x <;> cases y <;> simp_all [isExactScalar, pyEq]

theorem pySet_subset : ∀ l, ∀ x ∈ pySet l, x ∈ l := by
  intro l
  induction l using pySet.induct with
  | case1 => intro x hx; simp [pySet] at hx
  | case2 x xs ih =>
    intro y hy
    rw [pySet] at hy
    rcases List.mem_cons.mp hy with rfl | hy'
    · simp
    · have := List.mem_of_mem_filter (ih y hy')
      simp [this]

theorem pySet_mem_complete : ∀ l, (∀ x ∈ l, isExactScalar x = true) →
    ∀ x ∈ l, x ∈ pySet l := by
  intro l
  induction l using pySet.induct with
  | case1 => intro _ x hx; simp at hx
  | case2 x xs ih =>
    intro hex y hy
    rw [pySet]
    rcases List.mem_cons.mp hy with rfl | hy'
    · simp
    · by_cases hxy : y = x
      · simp [hxy]
      · have hne : ¬ pyEq y x = true := by
          rw [pyEq_exact y x (hex y hy) (hex x (by simp))]
          exact hxy
        have hyf : y ∈ xs.filter (fun z => !pyEq z x) := by
          rw [List.mem_filter]
          exact ⟨hy', by simp [Bool.eq_false_iff.mpr hne]⟩
        exact List.mem_cons.mpr (Or.inr (ih
          (fun z hz => hex z (by simp [List.mem_of_mem_filter hz])) y hyf))

theorem pySet_nodup : ∀ l, (∀ x ∈ l, isExactScalar x = true) →
    (pySet l).Nodup := by
  intro l
  induction l using pySet.induct with
  | case1 => intro _; simp [pySet]
  | case2 x xs ih =>
    intro hex
    rw [pySet]
    refine List.Nodup.cons ?_ (ih
      (fun z hz => hex z (by simp [List.mem_of_mem_filter hz])))
    intro hx
    have hmem := pySet_subset _ x hx
    rw [List.mem_filter] at hmem
    have : pyEq x x = true := by
      rw [pyEq_exact x x (hex x (by simp)) (hex x (by simp))]
    simp [this] at hmem

theorem pySet_eq_self : ∀ l, l.Nodup → (∀ x ∈ l, isExactScalar x = true) →
    pySet l = l := by
  intro l
  induction l using pySet.induct with
  | case1 => intro _ _; simp [pySet]
  | case2 x xs ih =>
    intro hnd hex
    rw [pySet]
    have hfil : xs.filter (fun z => !pyEq z x) = xs := by
      rw [List.filter_eq_self]
      intro z hz
      have hne : ¬ pyEq z x = true := by
        rw [pyEq_exact z x (hex z (by simp [hz])) (hex x (by simp))]
        intro hzx
        subst hzx
        exact (List.nodup_cons.mp hnd).1 hz
      simp [Bool.eq_false_iff.mpr hne]
    rw [hfil] at ih
    rw [hfil, ih (List.nodup_cons.mp hnd).2 (fun z hz => hex z (by simp [hz]))]

/-! ### The validated run of `sorting_list` -/

theorem exact_isinst (x : PyVal) (h : isExactScalar x = true) :
    isinstStrOrInt x = true := by
  cases x <;> simp_all [isExactScalar, isinstStrOrInt]

theorem isinstStr_not_int (v : PyVal) (h : isinstStr v = true) :
    isinstInt v = false := by
  cases v <;> simp_all [isinstStr, isinstInt]

theorem isinstInt_not_str (v : PyVal) (h : isinstInt v = true) :
    isinstStr v = false := by
  cases v <;> simp_all [isinstStr, isinstInt]

theorem isinstStr_pystr (v : PyVal) (h : isinstStr v = true) :
    v = .pystr (strVal v) := by
  cases v <;> simp_all [isinstStr, strVal]

theorem sorting_list_ok (xs : List PyVal) (stop : Bool)
    (hall : xs.all isinstStrOrInt = true) :
    sorting_list (.pylist xs) stop
      = .ok false (sorting_list_strs xs ++ sorting_list_ints xs) := by
  simp [sorting_list, validate_input, isinstList, hall]

theorem sorting_list_invalid (xs : List PyVal) (stop : Bool)
    (h : xs.all isinstStrOrInt = false) :
    sorting_list (.pylist xs) stop
      = (if stop then .exit else .ok true []) := by
  simp [sorting_list, validate_input, isinstList, h]

instance : IsTotal PyVal strLe :=
  ⟨fun a b => by
    cases h : charListLt (strVal b).data (strVal a).data with
    | false => exact Or.inl h
    | true => exact Or.inr (charListLt_asymm _ _ h)⟩

instance : IsTrans PyVal strLe :=
  ⟨fun a b c hab hbc => by
    simp only [strLe] at hab hbc ⊢
    by_contra hca
    have hca' : charListLt (strVal c).data (strVal a).data = true := by
      simpa using hca
    cases hbc' : charListLt (strVal b).data (strVal c).data with
    | true =>
      have := charListLt_trans _ _ _ hbc' hca'
      rw [this] at hab
      exact Bool.noConfusion hab
    | false =>
      have : (strVal c).data = (strVal b).data :=
        charListLt_eq_of_nlt _ _ hbc hbc'
      rw [this] at hca'
      rw [hca'] at hab
      exact Bool.noConfusion hab⟩

instance : IsTotal PyVal numLe := ⟨fun a b => le_total _ _⟩

instance : IsTrans PyVal numLe := ⟨fun _ _ _ h1 h2 => le_trans h1 h2⟩

theorem sorting_list_strs_perm (xs : List PyVal) :
    (sorting_list_strs xs).Perm ((pySet xs).filter isinstStr) :=
  List.perm_insertionSort strLe _

theorem sorting_list_ints_perm (xs : List PyVal) :
    (sorting_list_ints xs).Perm ((pySet xs).filter isinstInt) :=
  List.perm_insertionSort numLe _

theorem sorting_list_strs_sorted (xs : List PyVal) :
    (sorting_list_strs xs).Pairwise strLe :=
  List.sorted_insertionSort strLe _

theorem sorting_list_ints_sorted (xs : List PyVal) :
    (sorting_list_ints xs).Pairwise numLe :=
  List.sorted_insertionSort numLe _

theorem mem_sorting_list_strs (xs : List PyVal) (v : PyVal) :
    v ∈ sorting_list_strs xs ↔ v ∈ pySet xs ∧ isinstStr v = true := by
  rw [(sorting_list_strs_perm xs).mem_iff, List.mem_filter]

theorem mem_sorting_list_ints (xs : List PyVal) (v : PyVal) :
    v ∈ sorting_list_ints xs ↔ v ∈ pySet xs ∧ isinstInt v = true := by
  rw [(sorting_list_ints_perm xs).mem_iff, List.mem_filter]

theorem mem_sorting_list_out (xs : List PyVal)
    (hex : ∀ x ∈ xs, isExactScalar x = true) (v : PyVal) :
    v ∈ sorting_list_strs xs ++ sorting_list_ints xs ↔ v ∈ xs := by
  rw [List.mem_append, mem_sorting_list_strs, mem_sorting_list_ints]
  constructor
  · rintro (⟨hm, _⟩ | ⟨hm, _⟩) <;> exact pySet_subset xs v hm
  · intro hv
    have hm := pySet_mem_complete xs hex v hv
    have := hex v hv
    cases v <;> simp_all [isExactScalar, isinstStr, isinstInt]

theorem nodup_sorting_list_out (xs : List PyVal)
    (hex : ∀ x ∈ xs, isExactScalar x = true) :
    (sorting_list_strs xs ++ sorting_list_ints xs).Nodup := by
  have hnd := pySet_nodup xs hex
  rw [List.nodup_append]
  refine ⟨(sorting_list_strs_perm xs).symm.nodup (hnd.filter _),
    (sorting_list_ints_perm xs).symm.nodup (hnd.filter _), ?_⟩
  intro a ha hb
  rw [mem_sorting_list_strs] at ha
  rw [mem_sorting_list_ints] at hb
  rw [isinstStr_not_int a ha.2] at hb
  exact Bool.noConfusion hb.2

theorem filter_sorting_list_out_str (xs : List PyVal) :
    (sorting_list_strs xs ++ sorting_list_ints xs).filter isinstStr
      = sorting_list_strs xs := by
  rw [List.filter_append]
  rw [List.filter_eq_self.mpr
    (fun v hv => ((mem_sorting_list_strs xs v).mp hv).2)]
  rw [show (sorting_list_ints xs).filter isinstStr = [] from by
    rw [List.filter_eq_nil_iff]
    intro v hv
    simp [isinstInt_not_str v ((mem_sorting_list_ints xs v).mp hv).2]]
  simp

theorem filter_sorting_list_out_int (xs : List PyVal) :
    (sorting_list_strs xs ++ sorting_list_ints xs).filter isinstInt
      = sorting_list_ints xs := by
  rw [List.filter_append]
  rw [List.filter_eq_self.mpr
    (fun v hv => ((mem_sorting_list_ints xs v).mp hv).2)]
  rw [show (sorting_list_strs xs).filter isinstInt = [] from by
    rw [List.filter_eq_nil_iff]
    intro v hv
    simp [isinstStr_not_int v ((mem_sorting_list_strs xs v).mp hv).2]]
  simp

theorem exact_int_pyint (v : PyVal) (hex : isExactScalar v = true)
    (hint : isinstInt v = true) : ∃ n, v = .pyint n := by
  cases v <;> simp_all [isExactScalar, isinstInt]

theorem sorting_list_strs_pairwise_strict (xs : List PyVal)
    (hex : ∀ x ∈ xs, isExactScalar x = true) :
    (sorting_list_strs xs).Pairwise strStrictLt := by
  have hs := sorting_list_strs_sorted xs
  have hn : (sorting_list_strs xs).Nodup :=
    (sorting_list_strs_perm xs).symm.nodup ((pySet_nodup xs hex).filter _)
  refine (hs.and hn).imp_of_mem ?_
  intro a b ha hb hab
  obtain ⟨hle, hne⟩ := hab
  have hsa := ((mem_sorting_list_strs xs a).mp ha).2
  have hsb := ((mem_sorting_list_strs xs b).mp hb).2
  rw [strStrictLt]
  by_contra hc
  have h1 : charListLt (strVal a).data (strVal b).data = false := by
    simpa using hc
  have h2 : (strVal a).data = (strVal b).data :=
    charListLt_eq_of_nlt _ _ h1 hle
  have h3 : strVal a = strVal b := string_ext_data _ _ h2
  have : a = b := by
    rw [isinstStr_pystr a hsa, isinstStr_pystr b hsb, h3]
  exact hne this

theorem sorting_list_ints_pairwise_strict (xs : List PyVal)
    (hex : ∀ x ∈ xs, isExactScalar x = true) :
    (sorting_list_ints xs).Pairwise numStrictLt := by
  have hs := sorting_list_ints_sorted xs
  have hn : (sorting_list_ints xs).Nodup :=
    (sorting_list_ints_perm xs).symm.nodup ((pySet_nodup xs hex).filter _)
  refine (hs.and hn).imp_of_mem ?_
  intro a b ha hb hab
  obtain ⟨hle, hne⟩ := hab
  have hia := (mem_sorting_list_ints xs a).mp ha
  have hib := (mem_sorting_list_ints xs b).mp hb
  have hexa := hex a (pySet_subset xs a hia.1)
  have hexb := hex b (pySet_subset xs b hib.1)
  obtain ⟨n, rfl⟩ := exact_int_pyint a hexa hia.2
  obtain ⟨m, rfl⟩ := exact_int_pyint b hexb hib.2
  rw [numStrictLt]
  rcases lt_or_eq_of_le hle with h | h
  · exact h
  · exfalso
    apply hne
    simp only [numVal, toRatN] at h
    rw [show n = m from by exact_mod_cast h]

theorem sorting_list_out_exact (xs : List PyVal)
    (hex : ∀ x ∈ xs, isExactScalar x = true) :
    ∀ v ∈ sorting_list_strs xs ++ sorting_list_ints xs,
      isExactScalar v = true := by
  intro v hv
  exact hex v ((mem_sorting_list_out xs hex v).mp hv)

theorem sorting_list_strs_idem (xs : List PyVal)
    (hex : ∀ x ∈ xs, isExactScalar x = true) :
    sorting_list_strs (sorting_list_strs xs ++ sorting_list_ints xs)
      = sorting_list_strs xs := by
  rw [sorting_list_strs,
    pySet_eq_self _ (nodup_sorting_list_out xs hex)
      (sorting_list_out_exact xs hex),
    filter_sorting_list_out_str]
  exact List.Sorted.insertionSort_eq (sorting_list_strs_sorted xs)

theorem sorting_list_ints_idem (xs : List PyVal)
    (hex : ∀ x ∈ xs, isExactScalar x = true) :
    sorting_list_ints (sorting_list_strs xs ++ sorting_list_ints xs)
      = sorting_list_ints xs := by
  rw [sorting_list_ints,
    pySet_eq_self _ (nodup_sorting_list_out xs hex)
      (sorting_list_out_exact xs hex),
    filter_sorting_list_out_int]
  exact List.Sorted.insertionSort_eq (sorting_list_ints_sorted xs)

/-! ### Run inversion for `sorting_dict_by_keys` -/

theorem sorting_dict_run_ok (ds : List PyVal) (keys : List PyVal)
    (reverse : Bool) (out : List PyVal)
    (h : sorting_dict_by_keys (.pylist ds) keys reverse = .ok false out) :
    ds.all isinstDict = true ∧ keys.all isinstStr = true
      ∧ sortE (recordComparator (keys.map strVal) reverse) ds = .ok out := by
  simp only [sorting_dict_by_keys, validate_input, isinstList, if_true] at h
  by_cases h1 : ds.all isinstDict = true
  · rw [if_pos h1] at h
    by_cases h2 : keys.all isinstStr = true
    · rw [if_pos h2] at h
      cases hs : sortE (recordComparator (keys.map strVal) reverse) ds with
      | ok out' =>
        rw [hs] at h
        simp only [PyResult.ok.injEq] at h
        exact ⟨h1, h2, by rw [h.2]⟩
      | error e =>
        rw [hs] at h
        simp at h
    · rw [if_neg h2] at h
      exact absurd h (by simp)
  · rw [if_neg h1] at h
    exact absurd h (by simp)

theorem map_strVal_pystr : ∀ (keys : List String),
    (keys.map PyVal.pystr).map strVal = keys := by
  intro keys
  induction keys with
  | nil => rfl
  | cons k kt ih => simp [strVal, ih]

theorem all_isinstStr_map_pystr (keys : List String) :
    (keys.map PyVal.pystr).all isinstStr = true := by
  rw [List.all_eq_true]
  intro x hx
  rw [List.mem_map] at hx
  obtain ⟨s, _, rfl⟩ := hx
  rfl

/-! ### Claim theorems: validation and error behaviour -/

/-- C5 (code bug evidence): in `sorting_dict_by_keys` every validation
failure — non-dict element, non-list container, non-string key — raises
`SystemExit` unconditionally: the function has no `stop` parameter and all
its validation `error_msg` calls default to `stop=True`, so the non-halting
mode the spec (and the test suite of the repository itself, which calls
`sorting_dict_by_keys(..., stop=False)`) requires does not exist, and the
`return []` / `return data` fallbacks are dead code. -/
theorem sorting_dict_validation_always_exits :
    sorting_dict_by_keys (.pylist [.pyint 1, .pyint 2, .pyint 3])
      [.pystr "key"] false = .exit
    ∧ sorting_dict_by_keys (.pystr "not a list") [.pystr "key"] false = .exit
    ∧ sorting_dict_by_keys (.pylist [.pydict [("id", .pyint 1)]])
      [.pyint 123] false = .exit := by
  refine ⟨?_, ?_, ?_⟩ <;>
    simp [sorting_dict_by_keys, validate_input, isinstList, isinstDict,
      isinstStr]

/-- C6: if the comparison step inside `sorted` raises after validation
has passed, `sorting_dict_by_keys` reports without halting
(`error_msg(..., stop=False)`) and returns the original input sequence
unchanged — not an empty sequence. -/
theorem sorting_dict_comparison_exception_returns_input
    (ds : List PyVal) (keys : List PyVal) (reverse : Bool)
    (hd : ds.all isinstDict = true) (hk : keys.all isinstStr = true)
    (herr : sortE (recordComparator (keys.map strVal) reverse) ds
      = .error ()) :
    sorting_dict_by_keys (.pylist ds) keys reverse = .ok true ds := by
  simp only [sorting_dict_by_keys, validate_input, isinstList, if_true]
  rw [if_pos hd, if_pos hk, herr]

/-- Witness for C6: two records whose `"k"` values (an `int` and a `str`)
are unorderable, so the comparator raises `TypeError` and the call returns
the input unchanged with the error reported. -/
theorem sorting_dict_comparison_exception_returns_input_witness :
    sorting_dict_by_keys
      (.pylist [.pydict [("k", .pyint 1)], .pydict [("k", .pystr "a")]])
      [.pystr "k"] false
      = .ok true [.pydict [("k", .pyint 1)], .pydict [("k", .pystr "a")]] :=
  sorting_dict_comparison_exception_returns_input
    [.pydict [("k", .pyint 1)], .pydict [("k", .pystr "a")]]
    [.pystr "k"] false
    (by simp [isinstDict]) (by simp [isinstStr])
    (by simp [sortE, insertE, recordComparator, recordLt, sortKey,
      keyListLt, pyGet, dictGet, isPyNone, pyEq, pyLt, strVal])

/-- C7: whenever `sorting_dict_by_keys` returns normally, the returned
sequence is a permutation of the input records (same multiset, same count;
records are returned by reference, never created, altered or destroyed, and
the input list object is not mutated — the model is pure, so only the
permutation content is a theorem). -/
theorem sorting_dict_output_perm_of_input (ds : List PyVal)
    (keys : List PyVal) (reverse rep : Bool) (out : List PyVal)
    (hrun : sorting_dict_by_keys (.pylist ds) keys reverse = .ok rep out) :
    out.Perm ds := by
  simp only [sorting_dict_by_keys, validate_input, isinstList, if_true]
    at hrun
  by_cases h1 : ds.all isinstDict = true
  · rw [if_pos h1] at hrun
    by_cases h2 : keys.all isinstStr = true
    · rw [if_pos h2] at hrun
      cases hs : sortE (recordComparator (keys.map strVal) reverse) ds with
      | ok out' =>
        rw [hs] at hrun
        simp only [PyResult.ok.injEq] at hrun
        rw [← hrun.2]
        exact sortE_ok_perm _ ds out' hs
      | error e =>
        rw [hs] at hrun
        simp only [PyResult.ok.injEq] at hrun
        rw [← hrun.2]
    · rw [if_neg h2] at hrun
      exact absurd hrun (by simp)
  · rw [if_neg h1] at hrun
    exact absurd hrun (by simp)

/-- Witness for C7 at a concrete successful sort. -/
theorem sorting_dict_output_perm_of_input_witness :
    sorting_dict_by_keys
      (.pylist [.pydict [("a", .pyint 2)], .pydict [("a", .pyint 1)]])
      [.pystr "a"] false
      = .ok false [.pydict [("a", .pyint 1)], .pydict [("a", .pyint 2)]]
    ∧ ([PyVal.pydict [("a", .pyint 1)], PyVal.pydict [("a", .pyint 2)]].Perm
        [PyVal.pydict [("a", .pyint 2)], PyVal.pydict [("a", .pyint 1)]]) := by
  have hrun : sorting_dict_by_keys
      (.pylist [.pydict [("a", .pyint 2)], .pydict [("a", .pyint 1)]])
      [.pystr "a"] false
      = .ok false [.pydict [("a", .pyint 1)], .pydict [("a", .pyint 2)]] := by
    simp [sorting_dict_by_keys, validate_input, isinstList, isinstDict,
      isinstStr, strVal, sortE, insertE, recordComparator, recordLt,
      sortKey, keyListLt, pyGet, dictGet, isPyNone, pyEq, pyLt]
  exact ⟨hrun, sorting_dict_output_perm_of_input _ _ _ _ _ hrun⟩

/-- C8: with an empty key list, `sorting_dict_by_keys` returns the
records in their original order (every composite key is the empty tuple, so
every comparison answers "not less" and the stable sort reorders nothing,
with or without `reverse`). -/
theorem sorting_dict_empty_keys_identity (ds : List PyVal) (reverse : Bool)
    (hd : ds.all isinstDict = true) :
    sorting_dict_by_keys (.pylist ds) [] reverse = .ok false ds := by
  have hcmp : ∀ a ∈ ds, ∀ b ∈ ds,
      recordComparator (([] : List PyVal).map strVal) reverse a b
        = .ok false := by
    intro a _ b _
    cases reverse <;>
      simp [recordComparator, recordLt, sortKey, keyListLt]
  simp only [sorting_dict_by_keys, validate_input, isinstList, if_true]
  rw [if_pos hd, if_pos (by simp), sortE_const_false _ ds hcmp]

/-- Witness for C8: records in scrambled order are returned unchanged. -/
theorem sorting_dict_empty_keys_identity_witness :
    sorting_dict_by_keys
      (.pylist [.pydict [("a", .pyint 2)], .pydict [("a", .pyint 1)]])
      [] true
      = .ok false [.pydict [("a", .pyint 2)], .pydict [("a", .pyint 1)]] :=
  sorting_dict_empty_keys_identity
    [.pydict [("a", .pyint 2)], .pydict [("a", .pyint 1)]] true
    (by simp [isinstDict])

/-- C10: both operations accept only a Python `list` as the sequence
argument: any other value — a tuple in particular, even with valid
elements — fails the `isinstance(…, list)` check in `validate_input` and is
a `TypeMismatch`: `sorting_list` raises `SystemExit` in halt mode and
returns `[]` with the error reported in continue mode, and
`sorting_dict_by_keys` (halt-only) raises `SystemExit`. -/
theorem only_list_container_accepted (v : PyVal)
    (hv : isinstList v = false) (stop : Bool) (keys : List PyVal)
    (reverse : Bool) :
    sorting_list v stop = (if stop then .exit else .ok true [])
    ∧ sorting_dict_by_keys v keys reverse = .exit := by
  constructor
  · cases stop <;> simp [sorting_list, validate_input, hv]
  · simp [sorting_dict_by_keys, validate_input, hv]

/-- Witness for C10: a tuple of valid elements is rejected by both. -/
theorem only_list_container_accepted_witness :
    isinstList (.pytuple [.pyint 1, .pystr "a"]) = false
    ∧ sorting_list (.pytuple [.pyint 1, .pystr "a"]) false = .ok true []
    ∧ sorting_dict_by_keys (.pytuple [.pyint 1, .pystr "a"]) [] false
      = .exit := by
  have hv : isinstList (.pytuple [.pyint 1, .pystr "a"]) = false := by
    simp [isinstList]
  have h := only_list_container_accepted _ hv false [] false
  exact ⟨hv, by simpa using h.1, h.2⟩

/-! ### Claim theorems: `sorting_list` -/

/-- C2 counterexample: a boolean is not rejected by `sorting_list`.
Python `bool` is a subclass of `int`, so `isinstance(True, (str, int))`
holds: `sorting_list([True])` returns `[True]` with no error and no
`SystemExit`, where the claim demands a TypeMismatch signal. -/
theorem sorting_list_accepts_boolean :
    sorting_list (.pylist [.pybool true]) true
      = .ok false [.pybool true] := by
  simp [sorting_list, validate_input, isinstList, isinstStrOrInt,
    sorting_list_strs, sorting_list_ints, pySet, isinstStr, isinstInt,
    List.insertionSort, List.orderedInsert]

/-- C2 (amended): an input list containing an element that is neither
`str` nor `int` — where `bool` counts as `int`, because `bool` is a
subclass of `int` in Python — is a TypeMismatch: `SystemExit` in halt mode,
and empty-list result with the error reported in continue mode.  Floats,
`None` and composite values are rejected; booleans pass validation and sort
among the integers by value. -/
theorem sorting_list_rejects_non_str_int_bool (xs : List PyVal)
    (stop : Bool) (h : ∃ x ∈ xs, isinstStrOrInt x = false) :
    sorting_list (.pylist xs) stop
      = (if stop then .exit else .ok true []) := by
  apply sorting_list_invalid
  obtain ⟨x, hx, hfx⟩ := h
  by_cases hall : xs.all isinstStrOrInt = true
  · rw [List.all_eq_true] at hall
    rw [hall x hx] at hfx
    exact Bool.noConfusion hfx
  · exact Bool.eq_false_iff.mpr hall

/-- Witness for amended C2: `[1, 2.5]` (the scenario given in the spec) fails
validation and halts in halt mode. -/
theorem sorting_list_rejects_non_str_int_bool_witness :
    (∃ x ∈ [PyVal.pyint 1, PyVal.pyfloat (5 / 2 : Rat)],
      isinstStrOrInt x = false)
    ∧ sorting_list (.pylist [PyVal.pyint 1, PyVal.pyfloat (5 / 2 : Rat)])
        true = .exit := by
  have hex : ∃ x ∈ [PyVal.pyint 1, PyVal.pyfloat (5 / 2 : Rat)],
      isinstStrOrInt x = false :=
    ⟨.pyfloat (5 / 2 : Rat), by simp, by simp [isinstStrOrInt]⟩
  exact ⟨hex,
    by simpa using sorting_list_rejects_non_str_int_bool _ true hex⟩

/-- C3: on a list of exact `str`/`int` scalars, `sorting_list` returns,
with no error, exactly the distinct values of the input — the distinct
strings first in ascending code-point order, then the distinct integers in
ascending numeric order; in particular
`sorting_list(["c", 3, "a", 1, "a", 3])` is `["a", "c", 1, 3]`. -/
theorem sorting_list_distinct_partitioned_sorted (xs : List PyVal)
    (stop : Bool) (hex : ∀ x ∈ xs, isExactScalar x = true) :
    ∃ out, sorting_list (.pylist xs) stop = .ok false out
      ∧ (∀ v, v ∈ out ↔ v ∈ xs)
      ∧ out.Nodup
      ∧ out = out.filter isinstStr ++ out.filter isinstInt
      ∧ (out.filter isinstStr).Pairwise strStrictLt
      ∧ (out.filter isinstInt).Pairwise numStrictLt
      ∧ sorting_list (.pylist [.pystr "c", .pyint 3, .pystr "a", .pyint 1,
          .pystr "a", .pyint 3]) true
        = .ok false [.pystr "a", .pystr "c", .pyint 1, .pyint 3] := by
  refine ⟨sorting_list_strs xs ++ sorting_list_ints xs,
    sorting_list_ok xs stop
      (List.all_eq_true.mpr fun x hx => exact_isinst x (hex x hx)),
    fun v => mem_sorting_list_out xs hex v,
    nodup_sorting_list_out xs hex, ?_, ?_, ?_, ?_⟩
  · rw [filter_sorting_list_out_str, filter_sorting_list_out_int]
  · rw [filter_sorting_list_out_str]
    exact sorting_list_strs_pairwise_strict xs hex
  · rw [filter_sorting_list_out_int]
    exact sorting_list_ints_pairwise_strict xs hex
  · simp [sorting_list, validate_input, isinstList, isinstStrOrInt,
      sorting_list_strs, sorting_list_ints, pySet, pyEq, isinstStr,
      isinstInt, List.insertionSort, List.orderedInsert, strLe, numLe,
      strVal, numVal, toRatN, charListLt, boolAsInt]

/-- Witness for C3 at the example input given in the spec. -/
theorem sorting_list_distinct_partitioned_sorted_witness :
    (∀ x ∈ [PyVal.pystr "c", PyVal.pyint 3, PyVal.pystr "a", PyVal.pyint 1,
      PyVal.pystr "a", PyVal.pyint 3], isExactScalar x = true)
    ∧ ∃ out, sorting_list (.pylist [PyVal.pystr "c", PyVal.pyint 3,
        PyVal.pystr "a", PyVal.pyint 1, PyVal.pystr "a", PyVal.pyint 3])
        true = .ok false out ∧ (∀ v, v ∈ out ↔ v ∈ [PyVal.pystr "c",
        PyVal.pyint 3, PyVal.pystr "a", PyVal.pyint 1, PyVal.pystr "a",
        PyVal.pyint 3]) := by
  have hex : ∀ x ∈ [PyVal.pystr "c", PyVal.pyint 3, PyVal.pystr "a",
      PyVal.pyint 1, PyVal.pystr "a", PyVal.pyint 3],
      isExactScalar x = true := by
    simp [isExactScalar]
  obtain ⟨out, h1, h2, _⟩ :=
    sorting_list_distinct_partitioned_sorted
      [PyVal.pystr "c", PyVal.pyint 3, PyVal.pystr "a", PyVal.pyint 1,
        PyVal.pystr "a", PyVal.pyint 3] true hex
  exact ⟨hex, out, h1, h2⟩

/-- C9: `sorting_list` is idempotent on valid input: its output is a
fixed point (already deduplicated and sorted), so applying the operation to
its own output returns that output unchanged. -/
theorem sorting_list_idempotent (xs : List PyVal) (stop : Bool)
    (hex : ∀ x ∈ xs, isExactScalar x = true) :
    ∃ out, sorting_list (.pylist xs) stop = .ok false out
      ∧ sorting_list (.pylist out) stop = .ok false out := by
  refine ⟨sorting_list_strs xs ++ sorting_list_ints xs,
    sorting_list_ok xs stop
      (List.all_eq_true.mpr fun x hx => exact_isinst x (hex x hx)), ?_⟩
  have hex2 := sorting_list_out_exact xs hex
  rw [sorting_list_ok _ stop
    (List.all_eq_true.mpr fun x hx => exact_isinst x (hex2 x hx))]
  rw [sorting_list_strs_idem xs hex, sorting_list_ints_idem xs hex]

/-- Witness for C9 at a concrete mixed input with a duplicate. -/
theorem sorting_list_idempotent_witness :
    (∀ x ∈ [PyVal.pystr "b", PyVal.pystr "a", PyVal.pyint 2,
      PyVal.pystr "b"], isExactScalar x = true)
    ∧ ∃ out, sorting_list (.pylist [PyVal.pystr "b", PyVal.pystr "a",
        PyVal.pyint 2, PyVal.pystr "b"]) true = .ok false out
      ∧ sorting_list (.pylist out) true = .ok false out := by
  have hex : ∀ x ∈ [PyVal.pystr "b", PyVal.pystr "a", PyVal.pyint 2,
      PyVal.pystr "b"], isExactScalar x = true := by
    simp [isExactScalar]
  exact ⟨hex, sorting_list_idempotent
    [PyVal.pystr "b", PyVal.pystr "a", PyVal.pyint 2, PyVal.pystr "b"]
    true hex⟩

/-! ### Claim theorems: stability and missing-value placement -/

/-- C4: `sorting_dict_by_keys` is stable: whenever the sort succeeds,
two input records with `==`-equal composite sort keys appear in the output
in their original relative order, with or without `reverse` (CPython
`sorted` is stable, and `reverse=True` keeps ties in input order). -/
theorem sorting_dict_stable (ds : List PyVal) (keys : List String)
    (reverse : Bool) (out : List PyVal)
    (hrun : sorting_dict_by_keys (.pylist ds) (keys.map PyVal.pystr)
      reverse = .ok false out)
    (i j : Nat) (hi : i < ds.length) (hj : j < ds.length) (hij : i < j)
    (htie : recordTie keys (ds.get ⟨i, hi⟩) (ds.get ⟨j, hj⟩) = true) :
    ∃ (i' j' : Nat) (hi' : i' < out.length) (hj' : j' < out.length),
      i' < j' ∧ out.get ⟨i', hi'⟩ = ds.get ⟨i, hi⟩
      ∧ out.get ⟨j', hj'⟩ = ds.get ⟨j, hj⟩ := by
  obtain ⟨hd, hk, hsort⟩ := sorting_dict_run_ok ds _ reverse out hrun
  rw [map_strVal_pystr] at hsort
  obtain ⟨out', hs', hmap⟩ := sortE_decorated _ ds out hsort
  subst hmap
  have hl : (decorate ds 0).Pairwise
      (fun p q : PyVal × Nat =>
        recordTie keys p.1 q.1 = true → p.2 < q.2) := by
    refine (decorate_pairwise_snd ds 0).imp ?_
    intro a b hab _
    exact hab
  have hlt : ∀ a ∈ decorate ds 0, ∀ b ∈ decorate ds 0,
      (fun p q : PyVal × Nat =>
        recordComparator keys reverse p.1 q.1) a b = .ok true →
      (recordTie keys a.1 b.1 = true → a.2 < b.2) := by
    intro a _ b _ hcmp htie'
    exfalso
    simp only at hcmp
    obtain ⟨hf1, hf2⟩ := recordTie_lt_false keys a.1 b.1 htie'
    cases reverse with
    | false =>
      rw [show recordComparator keys false a.1 b.1
        = recordLt keys a.1 b.1 from rfl, hf1] at hcmp
      exact Bool.noConfusion (Except.ok.inj hcmp)
    | true =>
      rw [show recordComparator keys true a.1 b.1
        = recordLt keys b.1 a.1 from rfl, hf2] at hcmp
      exact Bool.noConfusion (Except.ok.inj hcmp)
  have hp' := sortE_pairwise _ _ (decorate ds 0) out' hs' hl hlt
  have hperm' := sortE_ok_perm _ _ _ hs'
  have hdlen : i < (decorate ds 0).length := by
    rw [decorate_length]; exact hi
  have hdlen' : j < (decorate ds 0).length := by
    rw [decorate_length]; exact hj
  have hmem_i : (ds.get ⟨i, hi⟩, i) ∈ out' := by
    apply hperm'.mem_iff.mpr
    have hg := decorate_get ds 0 i hdlen hi
    rw [Nat.zero_add] at hg
    rw [← hg]
    exact List.get_mem _ _ _
  have hmem_j : (ds.get ⟨j, hj⟩, j) ∈ out' := by
    apply hperm'.mem_iff.mpr
    have hg := decorate_get ds 0 j hdlen' hj
    rw [Nat.zero_add] at hg
    rw [← hg]
    exact List.get_mem _ _ _
  obtain ⟨pi, hpi⟩ := List.mem_iff_get.mp hmem_i
  obtain ⟨pj, hpj⟩ := List.mem_iff_get.mp hmem_j
  have hlt_p : pi.val < pj.val := by
    rcases Nat.lt_trichotomy pi.val pj.val with h | h | h
    · exact h
    · exfalso
      have hpp : pi = pj := Fin.ext h
      rw [hpp, hpj] at hpi
      have := congrArg Prod.snd hpi
      simp only at this
      omega
    · exfalso
      have hR := (List.pairwise_iff_get.mp hp') pj pi h
      rw [hpi, hpj] at hR
      have := hR (recordTie_symm keys _ _ htie)
      simp only at this
      omega
  have hil : pi.val < (List.map Prod.fst out').length := by
    rw [List.length_map]; exact pi.isLt
  have hjl : pj.val < (List.map Prod.fst out').length := by
    rw [List.length_map]; exact pj.isLt
  rw [List.get_eq_getElem] at hpi hpj
  refine ⟨pi.val, pj.val, hil, hjl, hlt_p, ?_, ?_⟩
  · rw [List.get_eq_getElem, List.getElem_map, hpi]
  · rw [List.get_eq_getElem, List.getElem_map, hpj]

/-- Witness for C4: two records tied on `"age"` (the stability scenario of the spec) keep their input order `Z` before `A` in the output. -/
theorem sorting_dict_stable_witness :
    sorting_dict_by_keys
      (.pylist [.pydict [("age", .pyint 25), ("name", .pystr "Z")],
        .pydict [("age", .pyint 25), ("name", .pystr "A")]])
      [.pystr "age"] false
      = .ok false [.pydict [("age", .pyint 25), ("name", .pystr "Z")],
        .pydict [("age", .pyint 25), ("name", .pystr "A")]]
    ∧ recordTie ["age"] (.pydict [("age", .pyint 25), ("name", .pystr "Z")])
        (.pydict [("age", .pyint 25), ("name", .pystr "A")]) = true
    ∧ ∃ (i' j' : Nat)
        (hi' : i' < ([PyVal.pydict [("age", .pyint 25), ("name", .pystr "Z")],
          PyVal.pydict [("age", .pyint 25), ("name", .pystr "A")]] :
            List PyVal).length)
        (hj' : j' < ([PyVal.pydict [("age", .pyint 25), ("name", .pystr "Z")],
          PyVal.pydict [("age", .pyint 25), ("name", .pystr "A")]] :
            List PyVal).length),
        i' < j' := by
  have hrun : sorting_dict_by_keys
      (.pylist [.pydict [("age", .pyint 25), ("name", .pystr "Z")],
        .pydict [("age", .pyint 25), ("name", .pystr "A")]])
      ((["age"] : List String).map PyVal.pystr) false
      = .ok false [.pydict [("age", .pyint 25), ("name", .pystr "Z")],
        .pydict [("age", .pyint 25), ("name", .pystr "A")]] := by
    simp [sorting_dict_by_keys, validate_input, isinstList, isinstDict,
      isinstStr, strVal, sortE, insertE, recordComparator, recordLt,
      sortKey, keyListLt, pyGet, dictGet, isPyNone, pyEq, pyLt]
  have htie : recordTie ["age"]
      (.pydict [("age", .pyint 25), ("name", .pystr "Z")])
      (.pydict [("age", .pyint 25), ("name", .pystr "A")]) = true := by
    simp [recordTie, keyListEqB, sortKey, pyGet, dictGet, isPyNone, pyEq]
  obtain ⟨i', j', hi', hj', hij', _, _⟩ :=
    sorting_dict_stable
      [.pydict [("age", .pyint 25), ("name", .pystr "Z")],
        .pydict [("age", .pyint 25), ("name", .pystr "A")]]
      ["age"] false
      [.pydict [("age", .pyint 25), ("name", .pystr "Z")],
        .pydict [("age", .pyint 25), ("name", .pystr "A")]]
      hrun 0 1 (by decide) (by decide) (by decide) (by exact htie)
  exact ⟨hrun, htie, i', j', hi', hj', hij'⟩

/-- C1: in a successful `sorting_dict_by_keys` run on comparable data,
a record whose value for a sort key is absent or `None` is placed after
every record with a present, non-`None` value for that key when
`reverse=False` (for equal higher-priority keys), and before every such
record when `reverse=True`: the `(d.get(k) is None, d.get(k))` flag is part
of the composite key, so the single `reverse` flag of `sorted` reverses
the missing-last placement together with the value order. -/
theorem sorting_dict_missing_placement (ds : List PyVal)
    (keys : List String) (reverse : Bool) (out : List PyVal)
    (hck : ∀ k ∈ keys, columnOK ds k)
    (hrun : sorting_dict_by_keys (.pylist ds) (keys.map PyVal.pystr)
      reverse = .ok false out)
    (i j : Nat) (hi : i < out.length) (hj : j < out.length) (hij : i < j)
    (m : Nat) (hm : m < keys.length)
    (htie : prefixTie keys m (out.get ⟨i, hi⟩) (out.get ⟨j, hj⟩)) :
    (reverse = false →
      ¬(isPyNone (pyGet (out.get ⟨i, hi⟩) (keys.get ⟨m, hm⟩)) = true
        ∧ isPyNone (pyGet (out.get ⟨j, hj⟩) (keys.get ⟨m, hm⟩)) = false))
    ∧ (reverse = true →
      ¬(isPyNone (pyGet (out.get ⟨i, hi⟩) (keys.get ⟨m, hm⟩)) = false
        ∧ isPyNone (pyGet (out.get ⟨j, hj⟩) (keys.get ⟨m, hm⟩)) = true)) := by
  obtain ⟨hd, hk, hsort⟩ := sorting_dict_run_ok ds _ reverse out hrun
  rw [map_strVal_pystr] at hsort
  have hperm := sortE_ok_perm _ ds out hsort
  have hasymm : ∀ a ∈ ds, ∀ b ∈ ds,
      recordComparator keys reverse a b = .ok true →
      recordComparator keys reverse b a ≠ .ok true :=
    fun a ha b hb h => recordComparator_asymm keys reverse ds hck a b ha hb h
  have hcot : ∀ x y z, x ∈ ds → y ∈ ds → z ∈ ds →
      recordComparator keys reverse z x = .ok true →
      recordComparator keys reverse z y = .ok true
        ∨ recordComparator keys reverse y x = .ok true :=
    fun x y z hx hy hz h =>
      recordComparator_cotrans keys reverse ds hck x y z hx hy hz h
  have hsorted := sortE_sorted _ ds out hsort hasymm hcot
  have hLE := (List.pairwise_iff_get.mp hsorted) ⟨i, hi⟩ ⟨j, hj⟩ hij
  have hain : out.get ⟨i, hi⟩ ∈ ds :=
    hperm.mem_iff.mp (List.get_mem _ _ _)
  have hbin : out.get ⟨j, hj⟩ ∈ ds :=
    hperm.mem_iff.mp (List.get_mem _ _ _)
  constructor
  · rintro rfl ⟨hmissA, hpresB⟩
    apply hLE
    rw [show recordComparator keys false (out.get ⟨j, hj⟩)
      (out.get ⟨i, hi⟩) = recordLt keys (out.get ⟨j, hj⟩)
      (out.get ⟨i, hi⟩) from rfl]
    rw [recordLt_eval keys ds _ _ hck hbin hain]
    rw [absKey_prefix_lt keys m (out.get ⟨j, hj⟩) (out.get ⟨i, hi⟩) hm
      (prefixTie_symm keys m _ _ htie) hpresB hmissA]
    simp
  · rintro rfl ⟨hpresA, hmissB⟩
    apply hLE
    rw [show recordComparator keys true (out.get ⟨j, hj⟩)
      (out.get ⟨i, hi⟩) = recordLt keys (out.get ⟨i, hi⟩)
      (out.get ⟨j, hj⟩) from rfl]
    rw [recordLt_eval keys ds _ _ hck hain hbin]
    rw [absKey_prefix_lt keys m (out.get ⟨i, hi⟩) (out.get ⟨j, hj⟩) hm
      htie hpresA hmissB]
    simp

/-- Witness for C1 at the missing-age scenario of the spec: sorting
`[Alice(30), Bob(–), Charlie(25)]` by `"age"` yields
`[Charlie, Alice, Bob]`, and the theorem applies to the output pair
(Alice, Bob) with the comparability hypothesis checked. -/
theorem sorting_dict_missing_placement_witness :
    sorting_dict_by_keys
      (.pylist [.pydict [("name", .pystr "Alice"), ("age", .pyint 30)],
        .pydict [("name", .pystr "Bob")],
        .pydict [("name", .pystr "Charlie"), ("age", .pyint 25)]])
      [.pystr "age"] false
      = .ok false [.pydict [("name", .pystr "Charlie"), ("age", .pyint 25)],
        .pydict [("name", .pystr "Alice"), ("age", .pyint 30)],
        .pydict [("name", .pystr "Bob")]]
    ∧ ¬(isPyNone (pyGet (.pydict [("name", .pystr "Alice"),
          ("age", .pyint 30)]) "age") = true
        ∧ isPyNone (pyGet (.pydict [("name", .pystr "Bob")]) "age")
          = false) := by
  have hrun : sorting_dict_by_keys
      (.pylist [.pydict [("name", .pystr "Alice"), ("age", .pyint 30)],
        .pydict [("name", .pystr "Bob")],
        .pydict [("name", .pystr "Charlie"), ("age", .pyint 25)]])
      ((["age"] : List String).map PyVal.pystr) false
      = .ok false [.pydict [("name", .pystr "Charlie"), ("age", .pyint 25)],
        .pydict [("name", .pystr "Alice"), ("age", .pyint 30)],
        .pydict [("name", .pystr "Bob")]] := by
    simp [sorting_dict_by_keys, validate_input, isinstList, isinstDict,
      isinstStr, strVal, sortE, insertE, recordComparator, recordLt,
      sortKey, keyListLt, pyGet, dictGet, isPyNone, pyEq, pyLt]
  have hck : ∀ k ∈ (["age"] : List String), columnOK
      [.pydict [("name", .pystr "Alice"), ("age", .pyint 30)],
        .pydict [("name", .pystr "Bob")],
        .pydict [("name", .pystr "Charlie"), ("age", .pyint 25)]] k := by
    intro k hk
    rw [List.mem_singleton] at hk
    subst hk
    left
    intro d hd
    simp only [List.mem_cons, List.not_mem_nil, or_false] at hd
    rcases hd with rfl | rfl | rfl <;>
      simp [numOrNone, pyGet, dictGet, toRatN, isPyNone]
  have happ := sorting_dict_missing_placement
    [.pydict [("name", .pystr "Alice"), ("age", .pyint 30)],
      .pydict [("name", .pystr "Bob")],
      .pydict [("name", .pystr "Charlie"), ("age", .pyint 25)]]
    ["age"] false
    [.pydict [("name", .pystr "Charlie"), ("age", .pyint 25)],
      .pydict [("name", .pystr "Alice"), ("age", .pyint 30)],
      .pydict [("name", .pystr "Bob")]]
    hck hrun 1 2 (by decide) (by decide) (by decide) 0 (by decide)
    (fun l hl _ => absurd hl (Nat.not_lt_zero l))
  exact ⟨hrun, happ.1 rfl⟩
